import Mathlib

/-!
Helper subroutines for the matchers of grep (`searchutils.c`).

A shallow embedding of `kwsinit`, `mbtoupper`, `build_mbclen_cache` and `is_mb_middle`
from `src/searchutils.c`, together with the properties of these functions.

Conventions of the embedding.

* Bytes and wide characters are natural numbers; a C string region
  `[beg, end)` is the list of its bytes.
* `size_t` is 64 bits wide; `(size_t) -1` and `(size_t) -2` are the constants
  `MB_INVALID` and `MB_INCOMPLETE`.
* The platform primitives (`mbrtowc`, `wcrtomb`, `towupper`, `mbrlen`,
  `MB_CUR_MAX`, `using_utf8`, `x2nrealloc`) are not part of the file; they are
  the fields of a `Locale`, over an arbitrary type of conversion states.
* The bytes written through `p` so far, `out[0 .. p)`, are a list that grows at
  its end; the same holds for the cells written through `m`.
-/

namespace Grep

/-! ## Machine constants -/

/-- The largest `size_t` value. -/
def SIZE_MAX : Nat := 2 ^ 64 - 1

/-- The value `(size_t) -1`: the decoder met an invalid sequence. -/
def MB_INVALID : Nat := SIZE_MAX

/-- The value `(size_t) -2`: the decoder met an incomplete sequence. -/
def MB_INCOMPLETE : Nat := SIZE_MAX - 1

/-- Modelled from the spec: the element type `mb_len_map_t` is declared in
`search.h`, which is not among the sources; the spec gives the length map as a
sequence of signed integers holding original length minus folded length. -/
abbrev mb_len_map_t := Int

/-! ## Platform primitives -/

/-- The primitives of the C library and of gnulib that `searchutils.c` calls,
for a type `σ` of conversion states (`mbstate_t`). -/
structure Locale (σ : Type) where
  /-- The value of `MB_CUR_MAX`. -/
  MB_CUR_MAX : Nat
  /-- The state produced by `memset (&s, 0, sizeof s)`. -/
  zero : σ
  /-- The call `mbrtowc (&wc, s, n, &ps)` on the `n` bytes at `s`: the value
  returned, the wide character stored, and the new state. -/
  mbrtowc : List Nat → σ → Nat × Nat × σ
  /-- The call `wcrtomb (p, wc, &ps)`: the bytes stored at `p`, whose number is
  the value returned, and the new state. -/
  wcrtomb : Nat → σ → List Nat × σ
  /-- The function `towupper`. -/
  towupper : Nat → Nat
  /-- The call `mbrlen (s, n, &ps)` on the `n` bytes at `s`: the value returned
  and the new state. -/
  mbrlen : List Nat → σ → Nat × σ
  /-- The value of `using_utf8 ()`. -/
  using_utf8 : Bool
  /-- The new allocation size chosen by `x2nrealloc (out, &outalloc, 1)` for a
  given old size. -/
  x2nrealloc : Nat → Nat

/-! ## mbtoupper -/

/-- The test `mbclen == (size_t) -1 || mbclen == (size_t) -2 || mbclen == 0`. -/
def isRawByte (mbclen : Nat) : Bool :=
  mbclen == MB_INVALID || mbclen == MB_INCOMPLETE || mbclen == 0

/-- The cells `m[0 .. ombclen)` after `*m = d; memset (m + 1, 0, ombclen - 1)`. -/
def mapCells (d : mb_len_map_t) (ombclen : Nat) : List mb_len_map_t :=
  (d :: List.replicate (ombclen - 1) 0).take ombclen

/-- The variables of the `while (beg < end)` loop of `mbtoupper`. -/
structure Loop (σ : Type) where
  /-- The bytes of `[beg, end)`. -/
  beg : List Nat
  /-- The decoder state `is`. -/
  is : σ
  /-- The encoder state `os`. -/
  os : σ
  /-- The bytes of `out[0 .. p)`. -/
  out : List Nat
  /-- The cells of `len_map[0 .. m)`. -/
  len_map : List mb_len_map_t
  /-- The counter `outlen`. -/
  outlen : Nat
  /-- The capacity `outalloc`. -/
  outalloc : Nat
  /-- The flag `lengths_differ`. -/
  lengths_differ : Bool

/-- The capacity after the check `if (outlen + mb_cur_max >= outalloc)` and its
growth step. -/
def growCheck {σ : Type} (L : Locale σ) (outlen outalloc : Nat) : Nat :=
  if outlen + L.MB_CUR_MAX ≥ outalloc then L.x2nrealloc outalloc else outalloc

/-- One iteration of the body of the `while (beg < end)` loop. -/
def mbtoupper_step {σ : Type} (L : Locale σ) (s : Loop σ) : Loop σ :=
  match s.beg with
  | [] => s
  | b :: rest =>
    let r := L.mbrtowc (b :: rest) s.is
    let mbclen := r.1
    let wc := r.2.1
    let outalloc := growCheck L s.outlen s.outalloc
    if isRawByte mbclen then
      { beg := rest, is := L.zero, os := L.zero,
        out := s.out ++ [b], len_map := s.len_map ++ [0],
        outlen := s.outlen + 1, outalloc := outalloc,
        lengths_differ := s.lengths_differ }
    else
      let e := L.wcrtomb (L.towupper wc) s.os
      let ombclen := e.1.length
      { beg := (b :: rest).drop mbclen, is := r.2.2, os := e.2,
        out := s.out ++ e.1,
        len_map := s.len_map ++ mapCells ((mbclen : Int) - (ombclen : Int)) ombclen,
        outlen := s.outlen + ombclen, outalloc := outalloc,
        lengths_differ := s.lengths_differ || (mbclen != ombclen) }

/-- The loop `while (beg < end)`, run for at most `fuel` iterations. -/
def mbtoupper_loop {σ : Type} (L : Locale σ) : Nat → Loop σ → Loop σ
  | 0, s => s
  | fuel + 1, s =>
    if s.beg = [] then s else mbtoupper_loop L fuel (mbtoupper_step L s)

/-- The function-local static variables of `mbtoupper`. -/
structure Statics where
  /-- The contents of the buffer `out`. -/
  out : List Nat
  /-- The contents of the buffer `len_map`. -/
  len_map : List mb_len_map_t
  /-- The capacity `outalloc`. -/
  outalloc : Nat

/-- The statics before the first call: no buffers, capacity 0. -/
def Statics.fresh : Statics := { out := [], len_map := [], outalloc := 0 }

/-- The contents of a buffer after `xrealloc` to `k` cells: the old contents up
to `k`; cells beyond the old size are unspecified in C and hold `fill` here. -/
def xrealloc {α : Type} (fill : α) (buf : List α) (k : Nat) : List α :=
  buf.take k ++ List.replicate (k - buf.length) fill

/-- What a call of `mbtoupper` leaves behind. -/
structure Result where
  /-- The contents of the buffer whose address is returned. -/
  ret : List Nat
  /-- The value of `*n` on return. -/
  n : Nat
  /-- The value of `*len_map_p` on return: `none` for `NULL`, otherwise the
  first `*n` cells of the map buffer. -/
  len_map_p : Option (List mb_len_map_t)
  /-- The statics on return. -/
  statics : Statics

/-- The loop variables on entry to the loop. -/
def Loop.init {σ : Type} (L : Locale σ) (beg : List Nat) (outalloc : Nat) : Loop σ :=
  { beg := beg, is := L.zero, os := L.zero, out := [], len_map := [],
    outlen := 0, outalloc := outalloc, lengths_differ := false }

/-- The statics after the statement `if (*n > outalloc || outalloc == 0) ...`
that opens `mbtoupper`, for an input of `n` bytes. -/
def mbtoupper_entry (st : Statics) (n : Nat) : Statics :=
  if n > st.outalloc ∨ st.outalloc = 0 then
    { out := xrealloc 0 st.out (max 1 n), len_map := xrealloc 0 st.len_map (max 1 n),
      outalloc := max 1 n }
  else st

/-- The function `mbtoupper (beg, n, len_map_p)`: `beg` holds the `*n` input
bytes, `slot` is the value of `*len_map_p` before the call and `st` the statics
before the call. -/
def mbtoupper {σ : Type} (L : Locale σ) (st : Statics) (beg : List Nat)
    (slot : Option (List mb_len_map_t)) : Result :=
  let n := beg.length
  let st1 := mbtoupper_entry st n
  if n = 0 then
    { ret := st1.out, n := n, len_map_p := slot, statics := st1 }
  else
    let s := mbtoupper_loop L n (Loop.init L beg st1.outalloc)
    let outbuf := s.out ++ 0 :: (xrealloc 0 st1.out s.outalloc).drop (s.out.length + 1)
    let mapbuf := s.len_map ++ (xrealloc 0 st1.len_map s.outalloc).drop s.len_map.length
    { ret := outbuf, n := s.out.length,
      len_map_p := if s.lengths_differ then some (mapbuf.take s.out.length) else none,
      statics := { out := outbuf, len_map := mapbuf, outalloc := s.outalloc } }

/-- The bytes of the uppercase string: the first `*n` bytes of the buffer
returned. -/
def Result.output (r : Result) : List Nat := r.ret.take r.n

/-! ## build_mbclen_cache and is_mb_middle -/

/-- The table `mbclen_cache` as filled by `build_mbclen_cache`: entry `uc` is
`mbrlen (&c, 1, &mbs)` for the byte `c = uc` and a zeroed state. -/
def build_mbclen_cache {σ : Type} (L : Locale σ) (uc : Nat) : Nat :=
  (L.mbrlen [uc] L.zero).1

/-- The conversion of a pointer difference (`ptrdiff_t`) to `size_t`, as done
when it is compared with `MB_CUR_MAX`. -/
def toSize (d : Int) : Nat := (d % 2 ^ 64).toNat

/-- The byte `to_uchar (*p)` of the block `mem`, pointers being offsets from
the start of the block. -/
def byteAt (mem : List Nat) (p : Int) : Nat :=
  if p < 0 then 0 else mem.getD p.toNat 0

/-- The bytes of `[p, end)`. -/
def bytesFrom (mem : List Nat) (p e : Int) : List Nat :=
  (mem.take e.toNat).drop p.toNat

/-- The loop `for (p = buf; buf - p > MB_CUR_MAX; p--) if (...) break;`, from
the pointer `p` on, for at most `fuel` iterations. -/
def backScan {σ : Type} (L : Locale σ) (cache : Nat → Nat) (mem : List Nat) (buf : Int) :
    Nat → Int → Int
  | 0, p => p
  | fuel + 1, p =>
    if toSize (buf - p) > L.MB_CUR_MAX then
      if cache (byteAt mem p) ≠ MB_INVALID then p
      else backScan L cache mem buf fuel (p - 1)
    else p

/-- The pointer `p` from which the forward loop of `is_mb_middle` starts: the
statements from `p = *good` to the end of the `if (using_utf8 () && ...)`. -/
def resumePoint {σ : Type} (L : Locale σ) (cache : Nat → Nat) (mem : List Nat)
    (good buf : Int) : Int :=
  if L.using_utf8 = true ∧ toSize (buf - good) > L.MB_CUR_MAX then
    let p := backScan L cache mem buf (mem.length + 1) buf
    if toSize (buf - p) = L.MB_CUR_MAX then buf else p
  else good

/-- The variables of the `while (p < buf)` loop of `is_mb_middle`. -/
structure Scan (σ : Type) where
  /-- The pointer `p`. -/
  p : Int
  /-- The pointer `prev`. -/
  prev : Int
  /-- The state `cur_state`. -/
  cur_state : σ

/-- One iteration of the body of the `while (p < buf)` loop. -/
def scan_step {σ : Type} (L : Locale σ) (cache : Nat → Nat) (mem : List Nat) (e : Int)
    (s : Scan σ) : Scan σ :=
  let c := cache (byteAt mem s.p)
  let r := if c = MB_INCOMPLETE then L.mbrlen (bytesFrom mem s.p e) s.cur_state
           else (c, s.cur_state)
  let mbclen := r.1
  let prev := if mbclen ≠ MB_INCOMPLETE then s.p else s.prev
  if isRawByte mbclen then
    { p := s.p + 1, prev := prev, cur_state := L.zero }
  else
    { p := s.p + (mbclen : Int), prev := prev, cur_state := r.2 }

/-- The loop `while (p < buf)`, run for at most `fuel` iterations. -/
def scan_loop {σ : Type} (L : Locale σ) (cache : Nat → Nat) (mem : List Nat) (buf e : Int) :
    Nat → Scan σ → Scan σ
  | 0, s => s
  | fuel + 1, s =>
    if s.p < buf then scan_loop L cache mem buf e fuel (scan_step L cache mem e s) else s

/-- The variables when the `while (p < buf)` loop of `is_mb_middle` is left. -/
def forwardScan {σ : Type} (L : Locale σ) (cache : Nat → Nat) (mem : List Nat)
    (good buf e : Int) : Scan σ :=
  let p := resumePoint L cache mem good buf
  scan_loop L cache mem buf e (buf - p).toNat { p := p, prev := good, cur_state := L.zero }

/-- The function `is_mb_middle (&good, buf, end, match_len)` on the block `mem`
with the table `cache` for `mbclen_cache`: the value returned and the value of
`*good` on return. -/
def is_mb_middle {σ : Type} (L : Locale σ) (cache : Nat → Nat) (mem : List Nat)
    (good buf e : Int) (match_len : Nat) : Bool × Int :=
  let s := forwardScan L cache mem good buf e
  if s.p > buf then (true, s.prev)
  else
    (decide (0 < match_len ∧ match_len < (L.mbrlen (bytesFrom mem s.p e) s.cur_state).1),
     s.prev)

/-! ## Example locales -/

/-- The decoder of the one- and two-byte part of UTF-8: the value returned and
the wide character. -/
def utf8Decode : List Nat → Nat × Nat
  | [] => (MB_INCOMPLETE, 0)
  | b :: rest =>
    if b = 0 then (0, 0)
    else if b < 128 then (1, b)
    else if 194 ≤ b ∧ b < 224 then
      match rest with
      | [] => (MB_INCOMPLETE, 0)
      | c :: _ => if 128 ≤ c ∧ c < 192 then (2, (b % 32) * 64 + c % 64) else (MB_INVALID, 0)
    else (MB_INVALID, 0)

/-- The encoder of the one- and two-byte part of UTF-8; other characters are
written as a question mark. -/
def utf8Encode (wc : Nat) : List Nat :=
  if wc < 128 then [wc]
  else if wc < 2048 then [192 + wc / 64, 128 + wc % 64]
  else [63]

/-- Uppercasing of ASCII letters with the Turkish pairs: dotless i (U+0131)
maps to `I`, and `i` maps to dotted capital I (U+0130). -/
def turkishUpper (c : Nat) : Nat :=
  if c = 105 then 304
  else if c = 305 then 73
  else if 97 ≤ c ∧ c ≤ 122 then c - 32
  else c

/-- A locale in the manner of `tr_TR.UTF-8`, restricted to characters of at
most two bytes. -/
def trLocale : Locale Unit :=
  { MB_CUR_MAX := 6, zero := (),
    mbrtowc := fun bs _ => ((utf8Decode bs).1, (utf8Decode bs).2, ()),
    wcrtomb := fun wc _ => (utf8Encode wc, ()),
    towupper := turkishUpper,
    mbrlen := fun bs _ => ((utf8Decode bs).1, ()),
    using_utf8 := true,
    x2nrealloc := fun n => n + n / 2 + 1 }

/-! ## Assumptions on the platform primitives -/

/-- A decoder whose successful results consume between 1 and the remaining
number of bytes: a value returned by `mbrtowc` that is not `(size_t) -1`,
`(size_t) -2` or 0 is at most the number of bytes it was given. -/
def DecoderOK {σ : Type} (L : Locale σ) : Prop :=
  ∀ bs s, isRawByte (L.mbrtowc bs s).1 = false → (L.mbrtowc bs s).1 ≤ bs.length

/-- An encoder that returns a length between 1 and `MB_CUR_MAX`. -/
def EncoderOK {σ : Type} (L : Locale σ) : Prop :=
  ∀ wc s, 1 ≤ (L.wcrtomb wc s).1.length ∧ (L.wcrtomb wc s).1.length ≤ L.MB_CUR_MAX

/-- The loop variables after `k` iterations of the loop of `mbtoupper`, called
with the statics `st` on the input `beg`. -/
def iter {σ : Type} (L : Locale σ) (st : Statics) (beg : List Nat) (k : Nat) : Loop σ :=
  mbtoupper_loop L k (Loop.init L beg (mbtoupper_entry st beg.length).outalloc)

/-- The value `mbclen` that the decoder returns at the loop state `s`. -/
def mbclenAt {σ : Type} (L : Locale σ) (s : Loop σ) : Nat :=
  (L.mbrtowc s.beg s.is).1

/-- The bytes that the encoder writes at the loop state `s` for the uppercase
form of the character decoded there. -/
def encodedAt {σ : Type} (L : Locale σ) (s : Loop σ) : List Nat :=
  (L.wcrtomb (L.towupper (L.mbrtowc s.beg s.is).2.1) s.os).1

/-- The iteration at the loop state `s` decodes a character and re-encodes its
uppercase form with another number of bytes (`mbclen != ombclen`). -/
def lengthChanges {σ : Type} (L : Locale σ) (s : Loop σ) : Prop :=
  s.beg ≠ [] ∧ isRawByte (mbclenAt L s) = false ∧ mbclenAt L s ≠ (encodedAt L s).length

/-- Uppercasing of the ASCII letters. -/
def asciiUpper (c : Nat) : Nat :=
  if 97 ≤ c ∧ c ≤ 122 then c - 32 else c

/-- The decoder of a single-byte character set. -/
def byteDecode : List Nat → Nat × Nat
  | [] => (MB_INCOMPLETE, 0)
  | b :: _ => (if b = 0 then 0 else 1, b)

/-- A single-byte locale. -/
def byteLocale : Locale Unit :=
  { MB_CUR_MAX := 1, zero := (),
    mbrtowc := fun bs _ => ((byteDecode bs).1, (byteDecode bs).2, ()),
    wcrtomb := fun wc _ => ([wc % 256], ()),
    towupper := asciiUpper,
    mbrlen := fun bs _ => ((byteDecode bs).1, ()),
    using_utf8 := false,
    x2nrealloc := fun n => n + n / 2 + 1 }

/-- The decoder of a character set whose multibyte characters are the lead
byte 224 followed by two arbitrary bytes; it is not self-synchronizing. -/
def tripleDecode : List Nat → Nat × Nat
  | [] => (MB_INCOMPLETE, 0)
  | b :: rest =>
    if b = 0 then (0, 0)
    else if b < 128 then (1, b)
    else if b = 224 then
      match rest with
      | c :: d :: _ => (3, 65536 + c * 256 + d)
      | _ => (MB_INCOMPLETE, 0)
    else (MB_INVALID, 0)

/-- The encoder that goes with `tripleDecode`. -/
def tripleEncode (wc : Nat) : List Nat :=
  if wc < 128 then [wc]
  else if 65536 ≤ wc then [224, (wc - 65536) / 256 % 256, wc % 256]
  else [63]

/-- A multibyte locale that is not self-synchronizing. -/
def tripleLocale : Locale Unit :=
  { MB_CUR_MAX := 3, zero := (),
    mbrtowc := fun bs _ => ((tripleDecode bs).1, (tripleDecode bs).2, ()),
    wcrtomb := fun wc _ => (tripleEncode wc, ()),
    towupper := asciiUpper,
    mbrlen := fun bs _ => ((tripleDecode bs).1, ()),
    using_utf8 := false,
    x2nrealloc := fun n => n + n / 2 + 1 }

/-- The loop state `s` is the loop state `t` with the bytes `A` in front of
its output and the cells `B` in front of its map. -/
def Framed {σ : Type} (A : List Nat) (B : List mb_len_map_t) (s t : Loop σ) : Prop :=
  s.beg = t.beg ∧ s.is = t.is ∧ s.os = t.os ∧ s.out = A ++ t.out ∧ s.len_map = B ++ t.len_map

/-- ASCII bytes are single-byte characters of the locale: in the initial state
the decoder, given an ASCII byte, either takes the single-byte fallback (as for
the NUL byte, where it returns 0) or returns length 1, the byte as the wide
character, and the initial state; the encoder writes an ASCII character as
that byte and stays in the initial state. -/
def AsciiCompatible {σ : Type} (L : Locale σ) : Prop :=
  (∀ b rest, b < 128 →
    isRawByte (L.mbrtowc (b :: rest) L.zero).1 = true ∨
      L.mbrtowc (b :: rest) L.zero = (1, b, L.zero)) ∧
  (∀ b, b < 128 → L.wcrtomb b L.zero = ([b], L.zero))

/-! ## kwsinit -/

/-- The number of `char` values, `NCHAR = UCHAR_MAX + 1`. -/
def NCHAR : Nat := 256

/-- The table `trans` after the loop `for (i = 0; i < NCHAR; ++i) trans[i] =
toupper (i);`, each entry being stored in a `char`, that is as a byte. -/
def kwsinit_trans (toupper : Nat → Nat) : List Nat :=
  (List.range NCHAR).map (fun i => toupper i % 256)

/-- The function `kwsinit (&kwset)`: the value stored in `*kwset`, or `none`
when `xalloc_die ()` is called. The matcher constructor `kwsalloc` takes a
translation table, or `none` for `NULL`, and returns `none` when it fails. -/
def kwsinit {σ κ : Type} (L : Locale σ) (match_icase : Bool) (toupper : Nat → Nat)
    (kwsalloc : Option (List Nat) → Option κ) : Option κ :=
  if match_icase = true ∧ L.MB_CUR_MAX = 1 then
    kwsalloc (some (kwsinit_trans toupper))
  else
    kwsalloc none

/-! ## The text of the spec for the output of the transcoder -/

/-- The output bytes as the spec words them: the concatenation, over the
successive decode steps taken from the start of the input, of the raw input
byte when the step is invalid, incomplete or of zero length, and of the
encoding of the uppercase form of the code point when the step decodes one.
The first argument bounds the number of steps. -/
def foldedBytes {σ : Type} (L : Locale σ) : Nat → List Nat → σ → σ → List Nat
  | 0, _, _, _ => []
  | fuel + 1, beg, is, os =>
    match beg with
    | [] => []
    | b :: rest =>
      if isRawByte (L.mbrtowc (b :: rest) is).1 then
        b :: foldedBytes L fuel rest L.zero L.zero
      else
        (L.wcrtomb (L.towupper (L.mbrtowc (b :: rest) is).2.1) os).1 ++
          foldedBytes L fuel ((b :: rest).drop (L.mbrtowc (b :: rest) is).1)
            (L.mbrtowc (b :: rest) is).2.2
            (L.wcrtomb (L.towupper (L.mbrtowc (b :: rest) is).2.1) os).2

/-! ## Self-synchronizing encodings -/

/-- The UTF-8 model of a self-synchronizing encoding: a successful `mbrlen`
consumes no more bytes than it was given, every byte of the character after
its first is a continuation byte, which the length cache built for the locale
marks as invalid, and a complete character leaves the state initial. -/
def SelfSynchronizing {σ : Type} (L : Locale σ) : Prop :=
  (∀ bs s, isRawByte (L.mbrlen bs s).1 = false → (L.mbrlen bs s).1 ≤ bs.length) ∧
  (∀ bs s, isRawByte (L.mbrlen bs s).1 = false →
    ∀ j, 1 ≤ j → j < (L.mbrlen bs s).1 → build_mbclen_cache L (bs.getD j 0) = MB_INVALID) ∧
  (∀ bs s, isRawByte (L.mbrlen bs s).1 = false → (L.mbrlen bs s).2 = L.zero)

/-- The text used in the examples for `is_mb_middle`: seven letters `a`, the
two bytes of dotless i, and the letter `b`. -/
def sampleText : List Nat := [97, 97, 97, 97, 97, 97, 97, 196, 177, 98]

/-! ## mbtoupper when wcrtomb fails -/

/-- One iteration of the body of the `while (beg < end)` loop when `wcrtomb` can
fail: `fails wc ps` says that the call `wcrtomb (p, wc, &ps)` returns
`(size_t) -1` because `wc` has no encoding in the locale. The value returned is
not tested, so lines 200-201 then run with `ombclen == (size_t) -1`, and
`memset (m + 1, 0, ombclen - 1)` clears `2^64 - 2` bytes, more than any buffer
holds: the behaviour is undefined, which is `none` here. In every other case
the iteration is `mbtoupper_step`. -/
def mbtoupper_step_raw {σ : Type} (L : Locale σ) (fails : Nat → σ → Bool) (s : Loop σ) :
    Option (Loop σ) :=
  match s.beg with
  | [] => some s
  | b :: rest =>
    let r := L.mbrtowc (b :: rest) s.is
    let mbclen := r.1
    let wc := r.2.1
    if isRawByte mbclen then some (mbtoupper_step L s)
    else if fails (L.towupper wc) s.os then none
    else some (mbtoupper_step L s)

/-- The loop `while (beg < end)` when `wcrtomb` can fail, run for at most `fuel`
iterations. -/
def mbtoupper_loop_raw {σ : Type} (L : Locale σ) (fails : Nat → σ → Bool) :
    Nat → Loop σ → Option (Loop σ)
  | 0, s => some s
  | fuel + 1, s =>
    if s.beg = [] then some s
    else
      match mbtoupper_step_raw L fails s with
      | none => none
      | some t => mbtoupper_loop_raw L fails fuel t

/-- The function `mbtoupper (beg, n, len_map_p)` when `wcrtomb` can fail: `none`
when the loop runs into the undefined behaviour of `mbtoupper_step_raw`, and
otherwise what the call leaves behind. -/
def mbtoupper_raw {σ : Type} (L : Locale σ) (fails : Nat → σ → Bool) (st : Statics)
    (beg : List Nat) (slot : Option (List mb_len_map_t)) : Option Result :=
  let n := beg.length
  let st1 := mbtoupper_entry st n
  if n = 0 then
    some { ret := st1.out, n := n, len_map_p := slot, statics := st1 }
  else
    match mbtoupper_loop_raw L fails n (Loop.init L beg st1.outalloc) with
    | none => none
    | some s =>
      let outbuf := s.out ++ 0 :: (xrealloc 0 st1.out s.outalloc).drop (s.out.length + 1)
      let mapbuf := s.len_map ++ (xrealloc 0 st1.len_map s.outalloc).drop s.len_map.length
      some { ret := outbuf, n := s.out.length,
             len_map_p := if s.lengths_differ then some (mapbuf.take s.out.length) else none,
             statics := { out := outbuf, len_map := mapbuf, outalloc := s.outalloc } }

theorem isRawByte_false_iff (n : Nat) :
    isRawByte n = false ↔ n ≠ MB_INVALID ∧ n ≠ MB_INCOMPLETE ∧ n ≠ 0 := by
  simp [isRawByte, and_assoc]

theorem mapCells_length (d : Int) (m : Nat) : (mapCells d m).length = m := by
  simp [mapCells]
  omega

theorem mapCells_sum (d : Int) (m : Nat) (hm : 1 ≤ m) : (mapCells d m).sum = d := by
  obtain ⟨k, rfl⟩ : ∃ k, m = k + 1 := ⟨m - 1, by omega⟩
  simp [mapCells, List.take_replicate]

theorem mapCells_succ (d : Int) (k : Nat) : mapCells d (k + 1) = d :: List.replicate k 0 := by
  simp [mapCells, List.take_replicate]

theorem step_nil {σ : Type} (L : Locale σ) (s : Loop σ) (h : s.beg = []) :
    mbtoupper_step L s = s := by
  simp [mbtoupper_step, h]

theorem step_raw {σ : Type} (L : Locale σ) (s : Loop σ) (b : Nat) (rest : List Nat)
    (h : s.beg = b :: rest) (hr : isRawByte (mbclenAt L s) = true) :
    mbtoupper_step L s =
      { beg := rest, is := L.zero, os := L.zero,
        out := s.out ++ [b], len_map := s.len_map ++ [0],
        outlen := s.outlen + 1, outalloc := growCheck L s.outlen s.outalloc,
        lengths_differ := s.lengths_differ } := by
  simp only [mbclenAt, h] at hr
  simp [mbtoupper_step, h, hr]

theorem step_ok {σ : Type} (L : Locale σ) (s : Loop σ)
    (h : s.beg ≠ []) (hr : isRawByte (mbclenAt L s) = false) :
    mbtoupper_step L s =
      { beg := s.beg.drop (mbclenAt L s), is := (L.mbrtowc s.beg s.is).2.2,
        os := (L.wcrtomb (L.towupper (L.mbrtowc s.beg s.is).2.1) s.os).2,
        out := s.out ++ encodedAt L s,
        len_map := s.len_map ++
          mapCells ((mbclenAt L s : Int) - ((encodedAt L s).length : Int)) (encodedAt L s).length,
        outlen := s.outlen + (encodedAt L s).length,
        outalloc := growCheck L s.outlen s.outalloc,
        lengths_differ := s.lengths_differ || (mbclenAt L s != (encodedAt L s).length) } := by
  obtain ⟨b, rest, hb⟩ : ∃ b rest, s.beg = b :: rest := by
    cases hs : s.beg with
    | nil => exact absurd hs h
    | cons b rest => exact ⟨b, rest, rfl⟩
  simp only [mbclenAt, hb] at hr
  simp [mbtoupper_step, hb, hr, mbclenAt, encodedAt]

theorem loop_zero {σ : Type} (L : Locale σ) (s : Loop σ) : mbtoupper_loop L 0 s = s := rfl

theorem loop_succ {σ : Type} (L : Locale σ) (k : Nat) (s : Loop σ) (h : s.beg ≠ []) :
    mbtoupper_loop L (k + 1) s = mbtoupper_loop L k (mbtoupper_step L s) := by
  simp [mbtoupper_loop, h]

theorem loop_nil {σ : Type} (L : Locale σ) (k : Nat) (s : Loop σ) (h : s.beg = []) :
    mbtoupper_loop L k s = s := by
  cases k with
  | zero => rfl
  | succ k => simp [mbtoupper_loop, h]

/-- Running `a + b` iterations is running `a` and then `b`. -/
theorem loop_add {σ : Type} (L : Locale σ) (a b : Nat) (s : Loop σ) :
    mbtoupper_loop L (a + b) s = mbtoupper_loop L b (mbtoupper_loop L a s) := by
  induction a generalizing s with
  | zero => simp [loop_zero]
  | succ a ih =>
    by_cases h : s.beg = []
    · rw [loop_nil L _ s h, loop_nil L _ s h, loop_nil L _ s h]
    · rw [show a + 1 + b = (a + b) + 1 by omega, loop_succ L _ s h, loop_succ L _ s h, ih]

/-- Every iteration consumes at least one input byte. -/
theorem step_beg_lt {σ : Type} (L : Locale σ) (s : Loop σ) (h : s.beg ≠ []) :
    (mbtoupper_step L s).beg.length < s.beg.length := by
  obtain ⟨b, rest, hb⟩ : ∃ b rest, s.beg = b :: rest := by
    cases hs : s.beg with
    | nil => exact absurd hs h
    | cons b rest => exact ⟨b, rest, rfl⟩
  cases hr : isRawByte (mbclenAt L s) with
  | true => rw [step_raw L s b rest hb hr, hb]; simp
  | false =>
    rw [step_ok L s h hr]
    have h0 := ((isRawByte_false_iff _).1 hr).2.2
    simp only [List.length_drop, hb, List.length_cons]
    omega

/-- With as much fuel as there are input bytes the loop is left because the
input is exhausted. -/
theorem loop_done {σ : Type} (L : Locale σ) (k : Nat) (s : Loop σ) (h : s.beg.length ≤ k) :
    (mbtoupper_loop L k s).beg = [] := by
  induction k generalizing s with
  | zero => simpa using h
  | succ k ih =>
    by_cases hb : s.beg = []
    · rw [loop_nil L _ s hb]; exact hb
    · rw [loop_succ L k s hb]
      apply ih
      have := step_beg_lt L s hb
      omega

/-- The cells written through `m` are as many as the bytes written through `p`,
and `outlen` counts them. -/
theorem step_lengths {σ : Type} (L : Locale σ) (s : Loop σ)
    (h : s.len_map.length = s.out.length ∧ s.outlen = s.out.length) :
    (mbtoupper_step L s).len_map.length = (mbtoupper_step L s).out.length ∧
      (mbtoupper_step L s).outlen = (mbtoupper_step L s).out.length := by
  by_cases hb : s.beg = []
  · rw [step_nil L s hb]; exact h
  · obtain ⟨b, rest, hbr⟩ : ∃ b rest, s.beg = b :: rest := by
      cases hs : s.beg with
      | nil => exact absurd hs hb
      | cons b rest => exact ⟨b, rest, rfl⟩
    cases hr : isRawByte (mbclenAt L s) with
    | true => rw [step_raw L s b rest hbr hr]; simp [h.1, h.2]
    | false => rw [step_ok L s hb hr]; simp [h.1, h.2, mapCells_length]

theorem loop_lengths {σ : Type} (L : Locale σ) (k : Nat) (s : Loop σ)
    (h : s.len_map.length = s.out.length ∧ s.outlen = s.out.length) :
    (mbtoupper_loop L k s).len_map.length = (mbtoupper_loop L k s).out.length ∧
      (mbtoupper_loop L k s).outlen = (mbtoupper_loop L k s).out.length := by
  induction k generalizing s with
  | zero => exact h
  | succ k ih =>
    by_cases hb : s.beg = []
    · rw [loop_nil L _ s hb]; exact h
    · rw [loop_succ L k s hb]; exact ih _ (step_lengths L s h)

theorem iter_lengths {σ : Type} (L : Locale σ) (st : Statics) (beg : List Nat) (k : Nat) :
    (iter L st beg k).len_map.length = (iter L st beg k).out.length :=
  (loop_lengths L k _ (by simp [Loop.init])).1

/-- The output and the map only grow at their end. -/
theorem step_extends {σ : Type} (L : Locale σ) (s : Loop σ) :
    s.out <+: (mbtoupper_step L s).out ∧ s.len_map <+: (mbtoupper_step L s).len_map := by
  by_cases hb : s.beg = []
  · rw [step_nil L s hb]; exact ⟨List.prefix_refl _, List.prefix_refl _⟩
  · obtain ⟨b, rest, hbr⟩ : ∃ b rest, s.beg = b :: rest := by
      cases hs : s.beg with
      | nil => exact absurd hs hb
      | cons b rest => exact ⟨b, rest, rfl⟩
    cases hr : isRawByte (mbclenAt L s) with
    | true => rw [step_raw L s b rest hbr hr]; exact ⟨List.prefix_append _ _, List.prefix_append _ _⟩
    | false => rw [step_ok L s hb hr]; exact ⟨List.prefix_append _ _, List.prefix_append _ _⟩

theorem loop_extends {σ : Type} (L : Locale σ) (k : Nat) (s : Loop σ) :
    s.out <+: (mbtoupper_loop L k s).out ∧ s.len_map <+: (mbtoupper_loop L k s).len_map := by
  induction k generalizing s with
  | zero => exact ⟨List.prefix_refl _, List.prefix_refl _⟩
  | succ k ih =>
    by_cases hb : s.beg = []
    · rw [loop_nil L _ s hb]; exact ⟨List.prefix_refl _, List.prefix_refl _⟩
    · rw [loop_succ L k s hb]
      exact ⟨(step_extends L s).1.trans (ih _).1, (step_extends L s).2.trans (ih _).2⟩

/-- The loop variables after all iterations: those after `k` iterations, run
to the end. -/
theorem iter_final {σ : Type} (L : Locale σ) (st : Statics) (beg : List Nat) (k : Nat) :
    iter L st beg beg.length = mbtoupper_loop L beg.length (iter L st beg k) := by
  have hdone : (iter L st beg beg.length).beg = [] := loop_done L _ _ (by simp [Loop.init])
  have h1 : mbtoupper_loop L (beg.length + k) (Loop.init L beg (mbtoupper_entry st beg.length).outalloc)
      = iter L st beg beg.length := by
    rw [loop_add]; exact loop_nil L _ _ hdone
  rw [← h1, Nat.add_comm, loop_add]
  rfl

theorem iter_extends {σ : Type} (L : Locale σ) (st : Statics) (beg : List Nat) (k : Nat) :
    (iter L st beg k).out <+: (iter L st beg beg.length).out ∧
      (iter L st beg k).len_map <+: (iter L st beg beg.length).len_map := by
  rw [iter_final L st beg k]
  exact loop_extends L _ _

/-! ## The result of mbtoupper in terms of its loop -/

theorem mbtoupper_n {σ : Type} (L : Locale σ) (st : Statics) (beg : List Nat)
    (slot : Option (List mb_len_map_t)) (hne : beg ≠ []) :
    (mbtoupper L st beg slot).n = (iter L st beg beg.length).out.length := by
  have : beg.length ≠ 0 := by simpa using hne
  simp [mbtoupper, this, iter]

theorem mbtoupper_output {σ : Type} (L : Locale σ) (st : Statics) (beg : List Nat)
    (slot : Option (List mb_len_map_t)) (hne : beg ≠ []) :
    (mbtoupper L st beg slot).output = (iter L st beg beg.length).out := by
  have : beg.length ≠ 0 := by simpa using hne
  simp [Result.output, mbtoupper, this, iter]

theorem mbtoupper_map {σ : Type} (L : Locale σ) (st : Statics) (beg : List Nat)
    (slot : Option (List mb_len_map_t)) (hne : beg ≠ []) :
    (mbtoupper L st beg slot).statics.len_map.take (mbtoupper L st beg slot).n
      = (iter L st beg beg.length).len_map := by
  have : beg.length ≠ 0 := by simpa using hne
  have hl := iter_lengths L st beg beg.length
  simp only [iter] at hl
  simp [mbtoupper, this, iter, ← hl]

theorem mbtoupper_len_map_p {σ : Type} (L : Locale σ) (st : Statics) (beg : List Nat)
    (slot : Option (List mb_len_map_t)) (hne : beg ≠ []) :
    (mbtoupper L st beg slot).len_map_p =
      if (iter L st beg beg.length).lengths_differ = true
      then some (iter L st beg beg.length).len_map else none := by
  have : beg.length ≠ 0 := by simpa using hne
  have hl := iter_lengths L st beg beg.length
  simp only [iter] at hl
  simp [mbtoupper, this, iter, ← hl]

/-! ## Accounting of input bytes -/

theorem beg_cases {σ : Type} (s : Loop σ) (h : s.beg ≠ []) : ∃ b rest, s.beg = b :: rest := by
  cases hs : s.beg with
  | nil => exact absurd hs h
  | cons b rest => exact ⟨b, rest, rfl⟩

/-- One iteration keeps the sum of the output length, the map entries and the
number of input bytes still to read. -/
theorem step_consumed {σ : Type} (L : Locale σ) (hd : DecoderOK L) (he : EncoderOK L)
    (s : Loop σ) :
    ((mbtoupper_step L s).out.length : Int) + (mbtoupper_step L s).len_map.sum
        + (mbtoupper_step L s).beg.length
      = (s.out.length : Int) + s.len_map.sum + s.beg.length := by
  by_cases hb : s.beg = []
  · rw [step_nil L s hb]
  · obtain ⟨b, rest, hbr⟩ := beg_cases s hb
    cases hr : isRawByte (mbclenAt L s) with
    | true =>
      rw [step_raw L s b rest hbr hr, hbr]
      simp only [List.length_append, List.length_cons, List.length_nil, List.sum_append,
        List.sum_cons, List.sum_nil]
      push_cast
      ring
    | false =>
      rw [step_ok L s hb hr]
      have hle : mbclenAt L s ≤ s.beg.length := hd s.beg s.is hr
      have hm : 1 ≤ (encodedAt L s).length := (he _ _).1
      simp only [List.length_append, List.sum_append, List.length_drop,
        mapCells_sum _ _ hm]
      push_cast [Nat.cast_sub hle]
      ring

theorem loop_consumed {σ : Type} (L : Locale σ) (hd : DecoderOK L) (he : EncoderOK L)
    (k : Nat) (s : Loop σ) :
    ((mbtoupper_loop L k s).out.length : Int) + (mbtoupper_loop L k s).len_map.sum
        + (mbtoupper_loop L k s).beg.length
      = (s.out.length : Int) + s.len_map.sum + s.beg.length := by
  induction k generalizing s with
  | zero => rfl
  | succ k ih =>
    by_cases hb : s.beg = []
    · rw [loop_nil L _ s hb]
    · rw [loop_succ L k s hb, ih, step_consumed L hd he]

theorem iter_consumed {σ : Type} (L : Locale σ) (hd : DecoderOK L) (he : EncoderOK L)
    (st : Statics) (beg : List Nat) (k : Nat) :
    ((iter L st beg k).out.length : Int) + (iter L st beg k).len_map.sum
      = (beg.length : Int) - (iter L st beg k).beg.length := by
  have h := loop_consumed L hd he k (Loop.init L beg (mbtoupper_entry st beg.length).outalloc)
  simp only [Loop.init, List.length_nil, List.sum_nil, Nat.cast_zero] at h
  simp only [iter, Loop.init]
  linarith

theorem iter_done {σ : Type} (L : Locale σ) (st : Statics) (beg : List Nat) :
    (iter L st beg beg.length).beg = [] :=
  loop_done L _ _ (by simp [Loop.init])

/-! ## The example locale meets the assumptions -/

theorem trLocale_decoderOK : DecoderOK trLocale := by
  intro bs s h
  rw [isRawByte_false_iff] at h
  obtain ⟨h1, h2, h3⟩ := h
  simp only [trLocale] at h1 h2 h3 ⊢
  cases bs with
  | nil => simp [utf8Decode] at h2
  | cons b rest =>
    simp only [utf8Decode] at h1 h2 h3 ⊢
    split_ifs at h1 h2 h3 ⊢ with c1 c2 c3
    · simp at h3
    · simp
    · cases rest with
      | nil => simp at h2
      | cons c t =>
        simp only at h1 h2 h3 ⊢
        split_ifs at h1 h2 h3 ⊢
        · simp
        · simp at h1
    · simp at h1

theorem utf8Encode_length (wc : Nat) :
    1 ≤ (utf8Encode wc).length ∧ (utf8Encode wc).length ≤ 2 := by
  unfold utf8Encode
  split_ifs <;> simp

theorem trLocale_encoderOK : EncoderOK trLocale := by
  intro wc s
  have := utf8Encode_length wc
  simp only [trLocale]
  omega

/-! ## Further facts on the loop -/

theorem loop_succ_right {σ : Type} (L : Locale σ) (k : Nat) (s : Loop σ) :
    mbtoupper_loop L (k + 1) s = mbtoupper_step L (mbtoupper_loop L k s) := by
  rw [loop_add]
  by_cases h : (mbtoupper_loop L k s).beg = []
  · rw [loop_nil L _ _ h, step_nil L _ h]
  · rw [loop_succ L 0 _ h, loop_zero]

theorem iter_succ {σ : Type} (L : Locale σ) (st : Statics) (beg : List Nat) (k : Nat) :
    iter L st beg (k + 1) = mbtoupper_step L (iter L st beg k) :=
  loop_succ_right L k _

theorem getElem?_of_extends {α : Type} (pre cells full : List α)
    (h : pre ++ cells <+: full) (j : Nat) (hj : j < cells.length) :
    full[pre.length + j]? = cells[j]? := by
  obtain ⟨t, rfl⟩ := h
  rw [List.append_assoc, List.getElem?_append_right (by omega)]
  simp only [Nat.add_sub_cancel_left]
  rw [List.getElem?_append_left hj]

theorem take_length_of_extends {α : Type} (pre full : List α) (h : pre <+: full) :
    full.take pre.length = pre := by
  obtain ⟨t, rfl⟩ := h
  simp

theorem mapCells_head (d : Int) (m : Nat) (hm : 0 < m) : (mapCells d m)[0]? = some d := by
  obtain ⟨k, rfl⟩ : ∃ k, m = k + 1 := ⟨m - 1, by omega⟩
  simp [mapCells_succ]

theorem mapCells_tail (d : Int) (m j : Nat) (h1 : 1 ≤ j) (h2 : j < m) :
    (mapCells d m)[j]? = some 0 := by
  obtain ⟨k, rfl⟩ : ∃ k, m = k + 1 := ⟨m - 1, by omega⟩
  obtain ⟨i, rfl⟩ : ∃ i, j = i + 1 := ⟨j - 1, by omega⟩
  rw [mapCells_succ]
  simp only [List.getElem?_cons_succ]
  rw [List.getElem?_replicate]
  simp
  omega

/-! ## Properties of mbtoupper -/

/-- C1: for a non-empty input, a decoder whose successful results consume
between 1 and the remaining number of bytes and an encoder that returns a
length between 1 and `MB_CUR_MAX`, the length of the output plus the sum of all
entries of the length map that was built is the length of the input; this
holds in particular for a map that is returned to the caller. -/
theorem mbtoupper_length_sum {σ : Type} (L : Locale σ) (hd : DecoderOK L) (he : EncoderOK L)
    (st : Statics) (beg : List Nat) (slot : Option (List mb_len_map_t)) (hne : beg ≠ []) :
    (((mbtoupper L st beg slot).output.length : Int)
        + ((mbtoupper L st beg slot).statics.len_map.take (mbtoupper L st beg slot).n).sum
      = (beg.length : Int)) ∧
    ∀ m, (mbtoupper L st beg slot).len_map_p = some m →
      ((mbtoupper L st beg slot).output.length : Int) + m.sum = (beg.length : Int) := by
  have hc := iter_consumed L hd he st beg beg.length
  rw [iter_done, List.length_nil, Nat.cast_zero, sub_zero] at hc
  rw [mbtoupper_output L st beg slot hne, mbtoupper_map L st beg slot hne,
    mbtoupper_len_map_p L st beg slot hne]
  refine ⟨hc, fun m hm => ?_⟩
  split_ifs at hm
  · cases hm; exact hc

theorem mbtoupper_length_sum_witness :
    DecoderOK trLocale ∧ EncoderOK trLocale ∧ ([97, 196, 177, 105] : List Nat) ≠ [] ∧
    ((((mbtoupper trLocale Statics.fresh [97, 196, 177, 105] none).output.length : Int)
        + ((mbtoupper trLocale Statics.fresh [97, 196, 177, 105] none).statics.len_map.take
            (mbtoupper trLocale Statics.fresh [97, 196, 177, 105] none).n).sum
      = (([97, 196, 177, 105] : List Nat).length : Int)) ∧
    ∀ m, (mbtoupper trLocale Statics.fresh [97, 196, 177, 105] none).len_map_p = some m →
      ((mbtoupper trLocale Statics.fresh [97, 196, 177, 105] none).output.length : Int) + m.sum
        = (([97, 196, 177, 105] : List Nat).length : Int)) :=
  ⟨trLocale_decoderOK, trLocale_encoderOK, by decide,
    mbtoupper_length_sum trLocale trLocale_decoderOK trLocale_encoderOK Statics.fresh
      [97, 196, 177, 105] none (by decide)⟩

/-- C2: for a non-empty input, let `s` be the output offset reached after `k`
iterations of the loop, that is an offset at which an output character starts
or at which the output ends. Then the output bytes before `s` are a prefix of
the output, and `s` plus the sum of the map entries at indices below `s` is the
input offset reached after these `k` iterations, where the corresponding
original character starts; once the input is exhausted `s` is the length of
the output and the sum is the length of the input. -/
theorem mbtoupper_prefix_sum {σ : Type} (L : Locale σ) (hd : DecoderOK L) (he : EncoderOK L)
    (st : Statics) (beg : List Nat) (slot : Option (List mb_len_map_t)) (hne : beg ≠ [])
    (k : Nat) :
    (iter L st beg k).out <+: (mbtoupper L st beg slot).output ∧
    ((iter L st beg k).out.length : Int)
        + (((mbtoupper L st beg slot).statics.len_map.take (mbtoupper L st beg slot).n).take
            (iter L st beg k).out.length).sum
      = (beg.length : Int) - ((iter L st beg k).beg.length : Int) ∧
    ((iter L st beg k).beg = [] →
      (iter L st beg k).out.length = (mbtoupper L st beg slot).output.length) := by
  rw [mbtoupper_output L st beg slot hne, mbtoupper_map L st beg slot hne]
  refine ⟨(iter_extends L st beg k).1, ?_, fun hk => ?_⟩
  · rw [← iter_lengths L st beg k, take_length_of_extends _ _ (iter_extends L st beg k).2,
      iter_lengths L st beg k]
    exact iter_consumed L hd he st beg k
  · rw [iter_final L st beg k, loop_nil L _ _ hk]

theorem mbtoupper_prefix_sum_witness :
    DecoderOK trLocale ∧ EncoderOK trLocale ∧ ([97, 196, 177, 105] : List Nat) ≠ [] ∧
    ((iter trLocale Statics.fresh [97, 196, 177, 105] 2).out
        <+: (mbtoupper trLocale Statics.fresh [97, 196, 177, 105] none).output ∧
    ((iter trLocale Statics.fresh [97, 196, 177, 105] 2).out.length : Int)
        + (((mbtoupper trLocale Statics.fresh [97, 196, 177, 105] none).statics.len_map.take
            (mbtoupper trLocale Statics.fresh [97, 196, 177, 105] none).n).take
            (iter trLocale Statics.fresh [97, 196, 177, 105] 2).out.length).sum
      = (([97, 196, 177, 105] : List Nat).length : Int)
          - ((iter trLocale Statics.fresh [97, 196, 177, 105] 2).beg.length : Int) ∧
    ((iter trLocale Statics.fresh [97, 196, 177, 105] 2).beg = [] →
      (iter trLocale Statics.fresh [97, 196, 177, 105] 2).out.length
        = (mbtoupper trLocale Statics.fresh [97, 196, 177, 105] none).output.length)) :=
  ⟨trLocale_decoderOK, trLocale_encoderOK, by decide,
    mbtoupper_prefix_sum trLocale trLocale_decoderOK trLocale_encoderOK Statics.fresh
      [97, 196, 177, 105] none (by decide) 2⟩

/-- C3: for a non-empty input the length map has exactly one entry per output
byte. At a step that decodes a character of `mbclen` bytes and re-encodes it
as `M` bytes, the entry at the first of these output bytes is `mbclen - M` and
the entries at the other `M - 1` bytes are 0; a byte emitted by the
single-byte fallback is the raw input byte and has entry 0. -/
theorem mbtoupper_map_entries {σ : Type} (L : Locale σ) (st : Statics) (beg : List Nat)
    (slot : Option (List mb_len_map_t)) (hne : beg ≠ []) :
    ((mbtoupper L st beg slot).statics.len_map.take (mbtoupper L st beg slot).n).length
      = (mbtoupper L st beg slot).output.length ∧
    ∀ k, (iter L st beg k).beg ≠ [] →
      (isRawByte (mbclenAt L (iter L st beg k)) = false →
        (0 < (encodedAt L (iter L st beg k)).length →
          ((mbtoupper L st beg slot).statics.len_map.take
              (mbtoupper L st beg slot).n)[(iter L st beg k).out.length]?
            = some ((mbclenAt L (iter L st beg k) : Int)
                - ((encodedAt L (iter L st beg k)).length : Int))) ∧
        ∀ j, 1 ≤ j → j < (encodedAt L (iter L st beg k)).length →
          ((mbtoupper L st beg slot).statics.len_map.take
              (mbtoupper L st beg slot).n)[(iter L st beg k).out.length + j]? = some 0) ∧
      (isRawByte (mbclenAt L (iter L st beg k)) = true →
        ((mbtoupper L st beg slot).statics.len_map.take
            (mbtoupper L st beg slot).n)[(iter L st beg k).out.length]? = some 0 ∧
        (mbtoupper L st beg slot).output[(iter L st beg k).out.length]?
          = (iter L st beg k).beg.head?) := by
  rw [mbtoupper_output L st beg slot hne, mbtoupper_map L st beg slot hne]
  refine ⟨iter_lengths L st beg _, fun k hk => ⟨fun hr => ?_, fun hr => ?_⟩⟩
  · have hstep := iter_succ L st beg k
    rw [step_ok L _ hk hr] at hstep
    have hpre := (iter_extends L st beg (k + 1)).2
    rw [hstep] at hpre
    simp only at hpre
    rw [← iter_lengths L st beg k]
    refine ⟨fun hm => ?_, fun j h1 h2 => ?_⟩
    · have := getElem?_of_extends _ _ _ hpre 0 (by rw [mapCells_length]; exact hm)
      rw [Nat.add_zero] at this
      rw [this, mapCells_head _ _ hm]
    · have := getElem?_of_extends _ _ _ hpre j (by rw [mapCells_length]; exact h2)
      rw [this, mapCells_tail _ _ _ h1 h2]
  · obtain ⟨b, rest, hb⟩ := beg_cases _ hk
    have hstep := iter_succ L st beg k
    rw [step_raw L _ b rest hb hr] at hstep
    have hpre := iter_extends L st beg (k + 1)
    rw [hstep] at hpre
    simp only at hpre
    constructor
    · rw [← iter_lengths L st beg k]
      have := getElem?_of_extends _ _ _ hpre.2 0 (by simp)
      rw [Nat.add_zero] at this
      rw [this]; rfl
    · have := getElem?_of_extends _ _ _ hpre.1 0 (by simp)
      rw [Nat.add_zero] at this
      rw [this, hb]; rfl

theorem mbtoupper_map_entries_witness :
    ([255, 196, 177] : List Nat) ≠ [] ∧
    (((mbtoupper trLocale Statics.fresh [255, 196, 177] none).statics.len_map.take
        (mbtoupper trLocale Statics.fresh [255, 196, 177] none).n).length
      = (mbtoupper trLocale Statics.fresh [255, 196, 177] none).output.length ∧
    ∀ k, (iter trLocale Statics.fresh [255, 196, 177] k).beg ≠ [] →
      (isRawByte (mbclenAt trLocale (iter trLocale Statics.fresh [255, 196, 177] k)) = false →
        (0 < (encodedAt trLocale (iter trLocale Statics.fresh [255, 196, 177] k)).length →
          ((mbtoupper trLocale Statics.fresh [255, 196, 177] none).statics.len_map.take
              (mbtoupper trLocale Statics.fresh [255, 196, 177] none).n)[(iter trLocale
                Statics.fresh [255, 196, 177] k).out.length]?
            = some ((mbclenAt trLocale (iter trLocale Statics.fresh [255, 196, 177] k) : Int)
                - ((encodedAt trLocale
                    (iter trLocale Statics.fresh [255, 196, 177] k)).length : Int))) ∧
        ∀ j, 1 ≤ j →
          j < (encodedAt trLocale (iter trLocale Statics.fresh [255, 196, 177] k)).length →
          ((mbtoupper trLocale Statics.fresh [255, 196, 177] none).statics.len_map.take
              (mbtoupper trLocale Statics.fresh [255, 196, 177] none).n)[(iter trLocale
                Statics.fresh [255, 196, 177] k).out.length + j]? = some 0) ∧
      (isRawByte (mbclenAt trLocale (iter trLocale Statics.fresh [255, 196, 177] k)) = true →
        ((mbtoupper trLocale Statics.fresh [255, 196, 177] none).statics.len_map.take
            (mbtoupper trLocale Statics.fresh [255, 196, 177] none).n)[(iter trLocale
              Statics.fresh [255, 196, 177] k).out.length]? = some 0 ∧
        (mbtoupper trLocale Statics.fresh [255, 196, 177] none).output[(iter trLocale
            Statics.fresh [255, 196, 177] k).out.length]?
          = (iter trLocale Statics.fresh [255, 196, 177] k).beg.head?)) :=
  ⟨by decide, mbtoupper_map_entries trLocale Statics.fresh [255, 196, 177] none (by decide)⟩

/-- C4: at the failing inputs of the claim the code stores the opposite sign.
Turkish dotless i (two bytes `C4 B1`) folds to the one byte `I`, and the map
entry at that byte is `+1`, not `-1`; the letter `i` (one byte) folds to dotted
capital I (two bytes `C4 B0`), and the entry at its first byte is `-1`. -/
theorem mbtoupper_dotless_i_entry :
    (mbtoupper trLocale Statics.fresh [196, 177] none).output = [73] ∧
    (mbtoupper trLocale Statics.fresh [196, 177] none).len_map_p = some [1] ∧
    (mbtoupper trLocale Statics.fresh [105] none).output = [196, 176] ∧
    (mbtoupper trLocale Statics.fresh [105] none).len_map_p = some [-1, 0] := by
  decide

/-! ## When the map is returned -/

theorem step_differ {σ : Type} (L : Locale σ) (s : Loop σ) :
    (mbtoupper_step L s).lengths_differ = true ↔
      s.lengths_differ = true ∨ lengthChanges L s := by
  by_cases hb : s.beg = []
  · rw [step_nil L s hb]; simp [lengthChanges, hb]
  · obtain ⟨b, rest, hbr⟩ := beg_cases s hb
    cases hr : isRawByte (mbclenAt L s) with
    | true => rw [step_raw L s b rest hbr hr]; simp [lengthChanges, hr]
    | false => rw [step_ok L s hb hr]; simp [lengthChanges, hr, hb]

theorem loop_differ {σ : Type} (L : Locale σ) (k : Nat) (s : Loop σ) :
    (mbtoupper_loop L k s).lengths_differ = true ↔
      s.lengths_differ = true ∨ ∃ j, j < k ∧ lengthChanges L (mbtoupper_loop L j s) := by
  induction k with
  | zero => simp [loop_zero]
  | succ k ih =>
    rw [loop_succ_right, step_differ, ih]
    constructor
    · rintro ((h | ⟨j, hj, h⟩) | h)
      · exact Or.inl h
      · exact Or.inr ⟨j, by omega, h⟩
      · exact Or.inr ⟨k, by omega, h⟩
    · rintro (h | ⟨j, hj, h⟩)
      · exact Or.inl (Or.inl h)
      · rcases Nat.lt_succ_iff_lt_or_eq.1 hj with h' | h'
        · exact Or.inl (Or.inr ⟨j, h', h⟩)
        · subst h'; exact Or.inr h

theorem iter_beg_nil_of_le {σ : Type} (L : Locale σ) (st : Statics) (beg : List Nat) (k : Nat)
    (h : beg.length ≤ k) : (iter L st beg k).beg = [] :=
  loop_done L _ _ (by simpa [Loop.init] using h)

theorem iter_differ {σ : Type} (L : Locale σ) (st : Statics) (beg : List Nat) :
    (iter L st beg beg.length).lengths_differ = true ↔
      ∃ k, lengthChanges L (iter L st beg k) := by
  rw [iter, loop_differ]
  constructor
  · rintro (h | ⟨j, _, h⟩)
    · simp [Loop.init] at h
    · exact ⟨j, h⟩
  · rintro ⟨k, h⟩
    refine Or.inr ⟨k, ?_, h⟩
    by_contra hk
    exact h.1 (iter_beg_nil_of_le L st beg k (by omega))

/-- C5: for a non-empty input, `mbtoupper` returns an absent (`NULL`) length
map if and only if every successfully decoded character was re-encoded with
the byte length of its original; as soon as one character has another length
it returns the map that it built, whatever the total lengths are. -/
theorem mbtoupper_map_absent_iff {σ : Type} (L : Locale σ) (st : Statics) (beg : List Nat)
    (slot : Option (List mb_len_map_t)) (hne : beg ≠ []) :
    ((mbtoupper L st beg slot).len_map_p = none ↔
      ∀ k, (iter L st beg k).beg ≠ [] → isRawByte (mbclenAt L (iter L st beg k)) = false →
        mbclenAt L (iter L st beg k) = (encodedAt L (iter L st beg k)).length) ∧
    ((∃ k, (iter L st beg k).beg ≠ [] ∧ isRawByte (mbclenAt L (iter L st beg k)) = false ∧
        mbclenAt L (iter L st beg k) ≠ (encodedAt L (iter L st beg k)).length) →
      (mbtoupper L st beg slot).len_map_p
        = some ((mbtoupper L st beg slot).statics.len_map.take (mbtoupper L st beg slot).n)) := by
  rw [mbtoupper_map L st beg slot hne, mbtoupper_len_map_p L st beg slot hne]
  have hd := iter_differ L st beg
  constructor
  · constructor
    · intro h k hk hr
      by_contra hne'
      have : (iter L st beg beg.length).lengths_differ = true := hd.2 ⟨k, hk, hr, hne'⟩
      simp [this] at h
    · intro h
      have : ¬ (iter L st beg beg.length).lengths_differ = true := by
        rw [hd]
        rintro ⟨k, hk, hr, hne'⟩
        exact hne' (h k hk hr)
      simp [this]
  · intro h
    have : (iter L st beg beg.length).lengths_differ = true := hd.2 h
    simp [this]

theorem mbtoupper_map_absent_iff_witness :
    ([196, 177, 105] : List Nat) ≠ [] ∧
    (((mbtoupper trLocale Statics.fresh [196, 177, 105] none).len_map_p = none ↔
      ∀ k, (iter trLocale Statics.fresh [196, 177, 105] k).beg ≠ [] →
        isRawByte (mbclenAt trLocale (iter trLocale Statics.fresh [196, 177, 105] k)) = false →
        mbclenAt trLocale (iter trLocale Statics.fresh [196, 177, 105] k)
          = (encodedAt trLocale (iter trLocale Statics.fresh [196, 177, 105] k)).length) ∧
    ((∃ k, (iter trLocale Statics.fresh [196, 177, 105] k).beg ≠ [] ∧
        isRawByte (mbclenAt trLocale (iter trLocale Statics.fresh [196, 177, 105] k)) = false ∧
        mbclenAt trLocale (iter trLocale Statics.fresh [196, 177, 105] k)
          ≠ (encodedAt trLocale (iter trLocale Statics.fresh [196, 177, 105] k)).length) →
      (mbtoupper trLocale Statics.fresh [196, 177, 105] none).len_map_p
        = some ((mbtoupper trLocale Statics.fresh [196, 177, 105] none).statics.len_map.take
            (mbtoupper trLocale Statics.fresh [196, 177, 105] none).n))) :=
  ⟨by decide, mbtoupper_map_absent_iff trLocale Statics.fresh [196, 177, 105] none (by decide)⟩

/-! ## Single-byte locales -/

theorem step_single {σ : Type} (L : Locale σ) (hmax : L.MB_CUR_MAX = 1)
    (hd : ∀ bs s, isRawByte (L.mbrtowc bs s).1 = false → (L.mbrtowc bs s).1 ≤ L.MB_CUR_MAX)
    (he : EncoderOK L) (s : Loop σ) :
    (mbtoupper_step L s).out.length + (mbtoupper_step L s).beg.length
        = s.out.length + s.beg.length ∧
      (mbtoupper_step L s).lengths_differ = s.lengths_differ := by
  by_cases hb : s.beg = []
  · rw [step_nil L s hb]; exact ⟨rfl, rfl⟩
  · obtain ⟨b, rest, hbr⟩ := beg_cases s hb
    cases hr : isRawByte (mbclenAt L s) with
    | true =>
      rw [step_raw L s b rest hbr hr, hbr]
      simp only [List.length_append, List.length_cons, List.length_nil, and_true]
      omega
    | false =>
      rw [step_ok L s hb hr]
      have h1 : mbclenAt L s = 1 := by
        have := hd s.beg s.is hr
        have h0 := ((isRawByte_false_iff _).1 hr).2.2
        simp only [mbclenAt] at h0 ⊢
        omega
      have h2 : (encodedAt L s).length = 1 := by
        have := he (L.towupper (L.mbrtowc s.beg s.is).2.1) s.os
        simp only [encodedAt]
        omega
      simp only [h1, h2, List.length_append, List.length_drop, hbr, List.length_cons]
      simp
      omega

theorem loop_single {σ : Type} (L : Locale σ) (hmax : L.MB_CUR_MAX = 1)
    (hd : ∀ bs s, isRawByte (L.mbrtowc bs s).1 = false → (L.mbrtowc bs s).1 ≤ L.MB_CUR_MAX)
    (he : EncoderOK L) (k : Nat) (s : Loop σ) :
    (mbtoupper_loop L k s).out.length + (mbtoupper_loop L k s).beg.length
        = s.out.length + s.beg.length ∧
      (mbtoupper_loop L k s).lengths_differ = s.lengths_differ := by
  induction k with
  | zero => exact ⟨rfl, rfl⟩
  | succ k ih =>
    rw [loop_succ_right]
    have := step_single L hmax hd he (mbtoupper_loop L k s)
    exact ⟨this.1.trans ih.1, this.2.trans ih.2⟩

/-- In a single-byte locale (`MB_CUR_MAX` is 1 and every decode consumes at
most one byte) whose encoder emits between 1 and `MB_CUR_MAX` bytes for every
character, for a non-empty input the output of `mbtoupper` is as long as the
input and the length map returned is absent (`NULL`). -/
theorem mbtoupper_single_byte {σ : Type} (L : Locale σ) (hmax : L.MB_CUR_MAX = 1)
    (hd : ∀ bs s, isRawByte (L.mbrtowc bs s).1 = false → (L.mbrtowc bs s).1 ≤ L.MB_CUR_MAX)
    (he : EncoderOK L) (st : Statics) (beg : List Nat) (slot : Option (List mb_len_map_t))
    (hne : beg ≠ []) :
    (mbtoupper L st beg slot).output.length = beg.length ∧
    (mbtoupper L st beg slot).n = beg.length ∧
    (mbtoupper L st beg slot).len_map_p = none := by
  have h := loop_single L hmax hd he beg.length
    (Loop.init L beg (mbtoupper_entry st beg.length).outalloc)
  have hdone := iter_done L st beg
  simp only [iter] at hdone
  rw [hdone] at h
  simp only [Loop.init, List.length_nil, Nat.add_zero, Nat.zero_add] at h
  rw [mbtoupper_output L st beg slot hne, mbtoupper_n L st beg slot hne,
    mbtoupper_len_map_p L st beg slot hne]
  simp only [iter, Loop.init]
  refine ⟨h.1, h.1, ?_⟩
  simp [h.2]

theorem byteLocale_decode_le :
    ∀ bs s, isRawByte (byteLocale.mbrtowc bs s).1 = false →
      (byteLocale.mbrtowc bs s).1 ≤ byteLocale.MB_CUR_MAX := by
  intro bs s h
  rw [isRawByte_false_iff] at h
  obtain ⟨h1, h2, h3⟩ := h
  simp only [byteLocale] at h1 h2 h3 ⊢
  cases bs with
  | nil => simp [byteDecode] at h2
  | cons b rest =>
    simp only [byteDecode] at h1 h2 h3 ⊢
    split_ifs at h1 h2 h3 ⊢
    · simp at h3
    · simp

theorem byteLocale_encoderOK : EncoderOK byteLocale := by
  intro wc s
  simp [byteLocale]

theorem mbtoupper_single_byte_witness :
    byteLocale.MB_CUR_MAX = 1 ∧
    (∀ bs s, isRawByte (byteLocale.mbrtowc bs s).1 = false →
      (byteLocale.mbrtowc bs s).1 ≤ byteLocale.MB_CUR_MAX) ∧
    EncoderOK byteLocale ∧ ([104, 233, 0, 90] : List Nat) ≠ [] ∧
    ((mbtoupper byteLocale Statics.fresh [104, 233, 0, 90] none).output.length
        = ([104, 233, 0, 90] : List Nat).length ∧
      (mbtoupper byteLocale Statics.fresh [104, 233, 0, 90] none).n
        = ([104, 233, 0, 90] : List Nat).length ∧
      (mbtoupper byteLocale Statics.fresh [104, 233, 0, 90] none).len_map_p = none) :=
  ⟨rfl, byteLocale_decode_le, byteLocale_encoderOK, by decide,
    mbtoupper_single_byte byteLocale rfl byteLocale_decode_le byteLocale_encoderOK
      Statics.fresh [104, 233, 0, 90] none (by decide)⟩

/-! ## The single-byte fallback -/

theorem step_framed {σ : Type} (L : Locale σ) (A : List Nat) (B : List mb_len_map_t)
    (s t : Loop σ) (h : Framed A B s t) :
    Framed A B (mbtoupper_step L s) (mbtoupper_step L t) := by
  obtain ⟨hb, hi, ho, hout, hmap⟩ := h
  by_cases hn : t.beg = []
  · rw [step_nil L t hn, step_nil L s (hb.trans hn)]
    exact ⟨hb, hi, ho, hout, hmap⟩
  · have hns : s.beg ≠ [] := by rw [hb]; exact hn
    obtain ⟨b, rest, hbr⟩ := beg_cases t hn
    have hm : mbclenAt L s = mbclenAt L t := by simp [mbclenAt, hb, hi]
    have he : encodedAt L s = encodedAt L t := by simp [encodedAt, hb, hi, ho]
    cases hr : isRawByte (mbclenAt L t) with
    | true =>
      rw [step_raw L t b rest hbr hr, step_raw L s b rest (hb.trans hbr) (hm ▸ hr)]
      simp [Framed, hout, hmap]
    | false =>
      rw [step_ok L t hn hr, step_ok L s hns (hm ▸ hr)]
      simp [Framed, hout, hmap, hm, he, hb, hi, ho]

theorem loop_framed {σ : Type} (L : Locale σ) (A : List Nat) (B : List mb_len_map_t)
    (k : Nat) (s t : Loop σ) (h : Framed A B s t) :
    Framed A B (mbtoupper_loop L k s) (mbtoupper_loop L k t) := by
  induction k with
  | zero => exact h
  | succ k ih =>
    rw [loop_succ_right, loop_succ_right]
    exact step_framed L A B _ _ ih

/-- More fuel than input bytes changes nothing. -/
theorem loop_fuel {σ : Type} (L : Locale σ) (k : Nat) (s : Loop σ) (h : s.beg.length ≤ k) :
    mbtoupper_loop L k s = mbtoupper_loop L s.beg.length s := by
  obtain ⟨d, rfl⟩ : ∃ d, k = s.beg.length + d := ⟨k - s.beg.length, by omega⟩
  rw [loop_add, loop_nil L d _ (loop_done L _ s (le_refl _))]

theorem iter_beg_ne {σ : Type} (L : Locale σ) (st : Statics) (beg : List Nat) (k : Nat)
    (h : (iter L st beg k).beg ≠ []) : beg ≠ [] := by
  intro hb
  apply h
  rw [iter, loop_nil L k _ (by simpa [Loop.init] using hb)]
  simpa [Loop.init] using hb

theorem iter_beg_length_le {σ : Type} (L : Locale σ) (st : Statics) (beg : List Nat) (k : Nat) :
    (iter L st beg k).beg.length ≤ beg.length := by
  induction k with
  | zero => simp [iter, loop_zero, Loop.init]
  | succ k ih =>
    rw [iter_succ]
    by_cases hb : (iter L st beg k).beg = []
    · rw [step_nil L _ hb]; exact ih
    · have := step_beg_lt L _ hb
      omega

/-- C7: at a position at which the decoder reports an invalid sequence, an
incomplete sequence or zero length, one iteration consumes exactly one input
byte, appends that byte unchanged to the output with map entry 0 and resets
the decoder and the encoder state to the initial state; the output and the map
of the whole call are those written before the byte, the byte with entry 0,
and the output and the map of a fresh conversion of the bytes that follow. -/
theorem mbtoupper_raw_byte {σ : Type} (L : Locale σ) (st st' : Statics) (beg : List Nat)
    (slot : Option (List mb_len_map_t)) (k b : Nat) (rest : List Nat)
    (hb : (iter L st beg k).beg = b :: rest)
    (hr : isRawByte (mbclenAt L (iter L st beg k)) = true) :
    (iter L st beg (k + 1)).beg = rest ∧
    (iter L st beg (k + 1)).out = (iter L st beg k).out ++ [b] ∧
    (iter L st beg (k + 1)).len_map = (iter L st beg k).len_map ++ [0] ∧
    (iter L st beg (k + 1)).is = L.zero ∧
    (iter L st beg (k + 1)).os = L.zero ∧
    (mbtoupper L st beg slot).output
      = (iter L st beg k).out ++ b :: (iter L st' rest rest.length).out ∧
    (mbtoupper L st beg slot).statics.len_map.take (mbtoupper L st beg slot).n
      = (iter L st beg k).len_map ++ 0 :: (iter L st' rest rest.length).len_map := by
  have hne : beg ≠ [] := iter_beg_ne L st beg k (by rw [hb]; simp)
  have hstep := iter_succ L st beg k
  rw [step_raw L _ b rest hb hr] at hstep
  have hfr : Framed ((iter L st beg k).out ++ [b]) ((iter L st beg k).len_map ++ [0])
      (iter L st beg (k + 1)) (Loop.init L rest (mbtoupper_entry st' rest.length).outalloc) := by
    rw [hstep]; simp [Framed, Loop.init]
  have hrun := loop_framed L _ _ beg.length _ _ hfr
  rw [← iter_final L st beg (k + 1)] at hrun
  have hlen : rest.length ≤ beg.length := by
    have := iter_beg_length_le L st beg k
    rw [hb] at this
    simp only [List.length_cons] at this
    omega
  rw [loop_fuel L beg.length (Loop.init L rest _) (by simpa [Loop.init] using hlen)] at hrun
  simp only [Loop.init] at hrun
  rw [mbtoupper_output L st beg slot hne, mbtoupper_map L st beg slot hne]
  refine ⟨by rw [hstep], by rw [hstep], by rw [hstep], by rw [hstep], by rw [hstep], ?_, ?_⟩
  · rw [hrun.2.2.2.1]; simp [iter, Loop.init]
  · rw [hrun.2.2.2.2]; simp [iter, Loop.init]

theorem mbtoupper_raw_byte_witness :
    (iter trLocale Statics.fresh [105, 255, 196, 177] 1).beg = 255 :: [196, 177] ∧
    isRawByte (mbclenAt trLocale (iter trLocale Statics.fresh [105, 255, 196, 177] 1)) = true ∧
    ((iter trLocale Statics.fresh [105, 255, 196, 177] (1 + 1)).beg = [196, 177] ∧
    (iter trLocale Statics.fresh [105, 255, 196, 177] (1 + 1)).out
      = (iter trLocale Statics.fresh [105, 255, 196, 177] 1).out ++ [255] ∧
    (iter trLocale Statics.fresh [105, 255, 196, 177] (1 + 1)).len_map
      = (iter trLocale Statics.fresh [105, 255, 196, 177] 1).len_map ++ [0] ∧
    (iter trLocale Statics.fresh [105, 255, 196, 177] (1 + 1)).is = trLocale.zero ∧
    (iter trLocale Statics.fresh [105, 255, 196, 177] (1 + 1)).os = trLocale.zero ∧
    (mbtoupper trLocale Statics.fresh [105, 255, 196, 177] none).output
      = (iter trLocale Statics.fresh [105, 255, 196, 177] 1).out
          ++ 255 :: (iter trLocale Statics.fresh [196, 177] ([196, 177] : List Nat).length).out ∧
    (mbtoupper trLocale Statics.fresh [105, 255, 196, 177] none).statics.len_map.take
        (mbtoupper trLocale Statics.fresh [105, 255, 196, 177] none).n
      = (iter trLocale Statics.fresh [105, 255, 196, 177] 1).len_map
          ++ 0 :: (iter trLocale Statics.fresh [196, 177]
              ([196, 177] : List Nat).length).len_map) :=
  ⟨by decide, by decide,
    mbtoupper_raw_byte trLocale Statics.fresh Statics.fresh [105, 255, 196, 177] none 1 255
      [196, 177] (by decide) (by decide)⟩

/-! ## Truncated sequences at the end of the input -/

theorem raw_run {σ : Type} (L : Locale σ) (n : Nat) :
    ∀ s : Loop σ, s.beg.length = n →
      (∀ j, j < s.beg.length →
        isRawByte (L.mbrtowc (s.beg.drop j) (if j = 0 then s.is else L.zero)).1 = true) →
      (mbtoupper_loop L n s).out = s.out ++ s.beg := by
  induction n with
  | zero =>
    intro s hn _
    rw [loop_zero, List.length_eq_zero.1 hn, List.append_nil]
  | succ n ih =>
    intro s hn h
    have hb : s.beg ≠ [] := by intro h0; rw [h0] at hn; simp at hn
    obtain ⟨b, rest, hbr⟩ := beg_cases s hb
    have h0 : isRawByte (mbclenAt L s) = true := by
      have := h 0 (by omega)
      simpa [mbclenAt] using this
    rw [loop_succ L n s hb, step_raw L s b rest hbr h0]
    have hlen : rest.length = n := by rw [hbr] at hn; simpa using hn
    rw [ih _ hlen]
    · simp [hbr]
    · intro j hj
      have := h (j + 1) (by rw [hbr]; simp only [List.length_cons]; simp only at hj; omega)
      simp only [hbr, List.drop_succ_cons] at this
      simpa using this

theorem step_suffix {σ : Type} (L : Locale σ) (s : Loop σ) :
    (mbtoupper_step L s).beg <:+ s.beg := by
  by_cases hb : s.beg = []
  · rw [step_nil L s hb]
  · obtain ⟨b, rest, hbr⟩ := beg_cases s hb
    cases hr : isRawByte (mbclenAt L s) with
    | true => rw [step_raw L s b rest hbr hr, hbr]; exact List.suffix_cons b rest
    | false => rw [step_ok L s hb hr]; exact List.drop_suffix _ _

theorem iter_suffix {σ : Type} (L : Locale σ) (st : Statics) (beg : List Nat) (k : Nat) :
    (iter L st beg k).beg <:+ beg := by
  induction k with
  | zero => simp [iter, loop_zero, Loop.init]
  | succ k ih =>
    rw [iter_succ]
    exact (step_suffix L _).trans ih

/-- C8 as stated fails: in a locale that is not self-synchronizing the bytes
`E0 61` are a proper prefix of the three-byte character `E0 61 62`, the
decoder reports them as incomplete at the end of the input `42 E0 61`, and yet
the output for this tail is `E0 41`: after the lead byte is copied, decoding
restarts at the byte `61`, which is the letter `a` and is folded. -/
theorem mbtoupper_tail_changed :
    (tripleLocale.mbrtowc [224, 97, 98] ()).1 = 3 ∧
    (iter tripleLocale Statics.fresh [66, 224, 97] 1).beg = [224, 97] ∧
    mbclenAt tripleLocale (iter tripleLocale Statics.fresh [66, 224, 97] 1) = MB_INCOMPLETE ∧
    (mbtoupper tripleLocale Statics.fresh [66, 224, 97] none).output.drop
        (iter tripleLocale Statics.fresh [66, 224, 97] 1).out.length = [224, 65] ∧
    (mbtoupper tripleLocale Statics.fresh [66, 224, 97] none).output.drop
        (iter tripleLocale Statics.fresh [66, 224, 97] 1).out.length ≠ [224, 97] := by
  decide

/-- C8, amended: let the input end with a tail at whose first byte the decoder
reports an incomplete sequence, and at each of whose later bytes the decoder,
restarted in the initial state, reports an invalid sequence, an incomplete
sequence or zero length (as at the continuation bytes of a truncated UTF-8
character). Then the output for that tail is the tail itself, byte for byte,
so the output for the tail is as long as the tail. -/
theorem mbtoupper_truncated_tail {σ : Type} (L : Locale σ) (st : Statics) (beg : List Nat)
    (slot : Option (List mb_len_map_t)) (k : Nat)
    (hne : (iter L st beg k).beg ≠ [])
    (hinc : mbclenAt L (iter L st beg k) = MB_INCOMPLETE)
    (hrest : ∀ j, 1 ≤ j → j < (iter L st beg k).beg.length →
      isRawByte (L.mbrtowc ((iter L st beg k).beg.drop j) L.zero).1 = true) :
    (iter L st beg k).beg <:+ beg ∧
    (mbtoupper L st beg slot).output = (iter L st beg k).out ++ (iter L st beg k).beg ∧
    (mbtoupper L st beg slot).output.drop (iter L st beg k).out.length
      = (iter L st beg k).beg := by
  have hb : beg ≠ [] := iter_beg_ne L st beg k hne
  have hout : (mbtoupper L st beg slot).output
      = (iter L st beg k).out ++ (iter L st beg k).beg := by
    rw [mbtoupper_output L st beg slot hb, iter_final L st beg k,
      loop_fuel L beg.length _ (iter_beg_length_le L st beg k)]
    apply raw_run L _ _ rfl
    intro j hj
    by_cases h0 : j = 0
    · subst h0
      have h1 : isRawByte (mbclenAt L (iter L st beg k)) = true := by rw [hinc]; decide
      simpa [mbclenAt] using h1
    · simpa [h0] using hrest j (by omega) hj
  refine ⟨iter_suffix L st beg k, hout, ?_⟩
  rw [hout, List.drop_left]

theorem mbtoupper_truncated_tail_witness :
    (iter tripleLocale Statics.fresh [97, 224, 200] 1).beg ≠ [] ∧
    mbclenAt tripleLocale (iter tripleLocale Statics.fresh [97, 224, 200] 1) = MB_INCOMPLETE ∧
    (∀ j, 1 ≤ j → j < (iter tripleLocale Statics.fresh [97, 224, 200] 1).beg.length →
      isRawByte (tripleLocale.mbrtowc
        ((iter tripleLocale Statics.fresh [97, 224, 200] 1).beg.drop j)
        tripleLocale.zero).1 = true) ∧
    ((iter tripleLocale Statics.fresh [97, 224, 200] 1).beg <:+ [97, 224, 200] ∧
    (mbtoupper tripleLocale Statics.fresh [97, 224, 200] none).output
      = (iter tripleLocale Statics.fresh [97, 224, 200] 1).out
          ++ (iter tripleLocale Statics.fresh [97, 224, 200] 1).beg ∧
    (mbtoupper tripleLocale Statics.fresh [97, 224, 200] none).output.drop
        (iter tripleLocale Statics.fresh [97, 224, 200] 1).out.length
      = (iter tripleLocale Statics.fresh [97, 224, 200] 1).beg) :=
  have h3 : ∀ j, 1 ≤ j → j < (iter tripleLocale Statics.fresh [97, 224, 200] 1).beg.length →
      isRawByte (tripleLocale.mbrtowc
        ((iter tripleLocale Statics.fresh [97, 224, 200] 1).beg.drop j)
        tripleLocale.zero).1 = true := by
    intro j h1 h2
    have hlen : (iter tripleLocale Statics.fresh [97, 224, 200] 1).beg.length = 2 := by decide
    have hj : j = 1 := by omega
    subst hj
    decide
  ⟨by decide, by decide, h3,
    mbtoupper_truncated_tail tripleLocale Statics.fresh [97, 224, 200] none 1
      (by decide) (by decide) h3⟩

/-! ## Uppercase ASCII input -/

theorem ascii_run {σ : Type} (L : Locale σ) (ha : AsciiCompatible L) (n : Nat) :
    ∀ s : Loop σ, s.beg.length = n → s.is = L.zero → s.os = L.zero →
      (∀ b ∈ s.beg, b < 128 ∧ L.towupper b = b) →
      (mbtoupper_loop L n s).out = s.out ++ s.beg := by
  induction n with
  | zero =>
    intro s hn _ _ _
    rw [loop_zero, List.length_eq_zero.1 hn, List.append_nil]
  | succ n ih =>
    intro s hn his hos hx
    have hb : s.beg ≠ [] := by intro h0; rw [h0] at hn; simp at hn
    obtain ⟨b, rest, hbr⟩ := beg_cases s hb
    have hlen : rest.length = n := by rw [hbr] at hn; simpa using hn
    have hb128 : b < 128 ∧ L.towupper b = b := hx b (by rw [hbr]; simp)
    have hrest : ∀ c ∈ rest, c < 128 ∧ L.towupper c = c :=
      fun c hc => hx c (by rw [hbr]; simp [hc])
    rw [loop_succ L n s hb]
    cases hr : isRawByte (mbclenAt L s) with
    | true =>
      rw [step_raw L s b rest hbr hr, ih _ hlen rfl rfl hrest]
      simp [hbr]
    | false =>
      have hdec : L.mbrtowc s.beg s.is = (1, b, L.zero) := by
        rcases ha.1 b rest hb128.1 with h | h
        · rw [mbclenAt, hbr, his] at hr
          rw [hr] at h
          exact absurd h (by simp)
        · rw [hbr, his]; exact h
      have henc : L.wcrtomb (L.towupper b) s.os = ([b], L.zero) := by
        rw [hb128.2, hos]; exact ha.2 b hb128.1
      rw [step_ok L s hb hr]
      have hm : mbclenAt L s = 1 := by rw [mbclenAt, hdec]
      have he : encodedAt L s = [b] := by rw [encodedAt, hdec]; simp only; rw [henc]
      rw [ih _ (by simp [hm, hbr, hlen]) (by simp [hdec]) (by simp [hdec, henc])
        (by simpa [hm, hbr] using hrest)]
      simp [hm, he, hbr]

/-- C9: in a locale whose ASCII bytes are single-byte characters, for a
non-empty input `x` of ASCII bytes that are already uppercase (`towupper`
leaves each of them unchanged) the output of `mbtoupper` is `x` itself, and so
converting the output again gives the output again. -/
theorem mbtoupper_ascii_upper {σ : Type} (L : Locale σ) (ha : AsciiCompatible L)
    (st st' : Statics) (x : List Nat) (slot slot' : Option (List mb_len_map_t))
    (hne : x ≠ []) (hx : ∀ b ∈ x, b < 128 ∧ L.towupper b = b) :
    (mbtoupper L st x slot).output = x ∧
    (mbtoupper L st' (mbtoupper L st x slot).output slot').output
      = (mbtoupper L st x slot).output := by
  have key : ∀ (st0 : Statics) (sl : Option (List mb_len_map_t)),
      (mbtoupper L st0 x sl).output = x := by
    intro st0 sl
    rw [mbtoupper_output L st0 x sl hne]
    have := ascii_run L ha x.length (Loop.init L x (mbtoupper_entry st0 x.length).outalloc)
      rfl rfl rfl hx
    simpa [iter, Loop.init] using this
  refine ⟨key st slot, ?_⟩
  rw [key st slot]
  exact key st' slot'

theorem trLocale_ascii : AsciiCompatible trLocale := by
  constructor
  · intro b rest hb
    by_cases h0 : b = 0
    · left; subst h0; rfl
    · right
      simp [trLocale, utf8Decode, h0, hb]
  · intro b hb
    simp [trLocale, utf8Encode, hb]

theorem mbtoupper_ascii_upper_witness :
    AsciiCompatible trLocale ∧ ([72, 73, 33, 0, 90] : List Nat) ≠ [] ∧
    (∀ b ∈ ([72, 73, 33, 0, 90] : List Nat), b < 128 ∧ trLocale.towupper b = b) ∧
    ((mbtoupper trLocale Statics.fresh [72, 73, 33, 0, 90] none).output = [72, 73, 33, 0, 90] ∧
    (mbtoupper trLocale Statics.fresh
        (mbtoupper trLocale Statics.fresh [72, 73, 33, 0, 90] none).output none).output
      = (mbtoupper trLocale Statics.fresh [72, 73, 33, 0, 90] none).output) :=
  ⟨trLocale_ascii, by decide, by decide,
    mbtoupper_ascii_upper trLocale trLocale_ascii Statics.fresh Statics.fresh
      [72, 73, 33, 0, 90] none none (by decide) (by decide)⟩

/-! ## is_mb_middle -/

/-- Every iteration of the forward loop advances `p` by at least one byte. -/
theorem scan_step_p {σ : Type} (L : Locale σ) (cache : Nat → Nat) (mem : List Nat) (e : Int)
    (s : Scan σ) : s.p + 1 ≤ (scan_step L cache mem e s).p := by
  simp only [scan_step]
  generalize (if cache (byteAt mem s.p) = MB_INCOMPLETE
    then L.mbrlen (bytesFrom mem s.p e) s.cur_state
    else (cache (byteAt mem s.p), s.cur_state)) = r
  cases hr : isRawByte r.1 with
  | true => simp
  | false =>
    have h0 := ((isRawByte_false_iff _).1 hr).2.2
    simp only [Bool.false_eq_true, if_false]
    omega

/-- With fuel for the distance to `buf` the forward loop is left because `p`
has reached `buf`. -/
theorem scan_loop_ge {σ : Type} (L : Locale σ) (cache : Nat → Nat) (mem : List Nat)
    (buf e : Int) (fuel : Nat) :
    ∀ s : Scan σ, buf - s.p ≤ (fuel : Int) → buf ≤ (scan_loop L cache mem buf e fuel s).p := by
  induction fuel with
  | zero =>
    intro s h
    simp only [scan_loop]
    simp only [Nat.cast_zero] at h
    omega
  | succ fuel ih =>
    intro s h
    simp only [scan_loop]
    split_ifs with hlt
    · apply ih
      have := scan_step_p L cache mem e s
      push_cast at h
      omega
    · omega

theorem forwardScan_ge {σ : Type} (L : Locale σ) (cache : Nat → Nat) (mem : List Nat)
    (good buf e : Int) : buf ≤ (forwardScan L cache mem good buf e).p := by
  unfold forwardScan
  apply scan_loop_ge
  exact Int.self_le_toNat _

/-- C10: `is_mb_middle` returns true exactly when the forward decode from the
resume point has advanced strictly past the candidate offset `buf`, or has
landed on `buf` and the match length is positive and smaller than the length
that `mbrlen` reports for the character starting there; in every other case it
returns false. The forward decode never stops before `buf`. In particular,
when it lands on `buf` and a character of `len >= 2` bytes starts there, a
match of length `len - 1` is rejected. -/
theorem is_mb_middle_result {σ : Type} (L : Locale σ) (cache : Nat → Nat) (mem : List Nat)
    (good buf e : Int) (match_len : Nat) :
    buf ≤ (forwardScan L cache mem good buf e).p ∧
    ((is_mb_middle L cache mem good buf e match_len).1 = true ↔
      (buf < (forwardScan L cache mem good buf e).p ∨
        ((forwardScan L cache mem good buf e).p = buf ∧ 0 < match_len ∧
          match_len < (L.mbrlen (bytesFrom mem buf e)
            (forwardScan L cache mem good buf e).cur_state).1))) ∧
    (∀ len, 2 ≤ len → (forwardScan L cache mem good buf e).p = buf →
      (L.mbrlen (bytesFrom mem buf e) (forwardScan L cache mem good buf e).cur_state).1 = len →
      (is_mb_middle L cache mem good buf e (len - 1)).1 = true) := by
  have hge := forwardScan_ge L cache mem good buf e
  have hiff : ∀ ml, ((is_mb_middle L cache mem good buf e ml).1 = true ↔
      (buf < (forwardScan L cache mem good buf e).p ∨
        ((forwardScan L cache mem good buf e).p = buf ∧ 0 < ml ∧
          ml < (L.mbrlen (bytesFrom mem buf e)
            (forwardScan L cache mem good buf e).cur_state).1))) := by
    intro ml
    unfold is_mb_middle
    simp only
    split_ifs with h
    · simp [h]
    · have hp : (forwardScan L cache mem good buf e).p = buf := by omega
      simp [hp]
  refine ⟨hge, hiff match_len, fun len h2 hp hl => ?_⟩
  rw [hiff (len - 1)]
  right
  refine ⟨hp, by omega, ?_⟩
  rw [hl]
  omega

theorem is_mb_middle_result_witness :
    (is_mb_middle trLocale (build_mbclen_cache trLocale) [97, 196, 177, 98] 0 1 4 (2 - 1)).1
      = true :=
  (is_mb_middle_result trLocale (build_mbclen_cache trLocale) [97, 196, 177, 98] 0 1 4 1).2.2
    2 (by decide) (by decide) (by decide)

/-! ## The resume point and the forward scan -/

theorem toSize_zero : toSize 0 = 0 := by decide

/-- The backward loop is left at once: at `p = buf` its condition
`buf - p > MB_CUR_MAX` is false. -/
theorem backScan_self {σ : Type} (L : Locale σ) (cache : Nat → Nat) (mem : List Nat)
    (buf : Int) (fuel : Nat) : backScan L cache mem buf fuel buf = buf := by
  cases fuel with
  | zero => rfl
  | succ fuel => simp [backScan, toSize_zero]

/-- The forward loop starts either at the cursor or at the candidate offset. -/
theorem resumePoint_cases {σ : Type} (L : Locale σ) (cache : Nat → Nat) (mem : List Nat)
    (good buf : Int) :
    (resumePoint L cache mem good buf = buf ∧
        (L.using_utf8 = true ∧ toSize (buf - good) > L.MB_CUR_MAX)) ∨
      (resumePoint L cache mem good buf = good ∧
        ¬ (L.using_utf8 = true ∧ toSize (buf - good) > L.MB_CUR_MAX)) := by
  unfold resumePoint
  split_ifs with h
  · left
    refine ⟨?_, h⟩
    simp only [backScan_self]
    split_ifs <;> rfl
  · right
    exact ⟨rfl, h⟩

theorem scan_loop_of_ge {σ : Type} (L : Locale σ) (cache : Nat → Nat) (mem : List Nat)
    (buf e : Int) (fuel : Nat) (s : Scan σ) (h : buf ≤ s.p) :
    scan_loop L cache mem buf e fuel s = s := by
  cases fuel with
  | zero => rfl
  | succ fuel =>
    simp only [scan_loop]
    rw [if_neg (by omega)]

/-- An invariant of the forward loop: what holds of the variables on entry and
is kept by every iteration made with `p < buf` holds when the loop is left. -/
theorem scan_loop_invariant {σ : Type} (L : Locale σ) (cache : Nat → Nat) (mem : List Nat)
    (buf e : Int) (P : Scan σ → Prop)
    (hstep : ∀ s, P s → s.p < buf → P (scan_step L cache mem e s)) (fuel : Nat) :
    ∀ s, P s → P (scan_loop L cache mem buf e fuel s) := by
  induction fuel with
  | zero => intro s hs; exact hs
  | succ fuel ih =>
    intro s hs
    simp only [scan_loop]
    split_ifs with hlt
    · exact ih _ (hstep s hs hlt)
    · exact hs

theorem bytesFrom_getD (mem : List Nat) (p e : Int) (j : Nat) (hp : 0 ≤ p)
    (hj : j < (bytesFrom mem p e).length) :
    (bytesFrom mem p e).getD j 0 = byteAt mem (p + (j : Int)) := by
  have hnn : ¬ (p + (j : Int) < 0) := by omega
  have hto : (p + (j : Int)).toNat = p.toNat + j := by omega
  simp only [bytesFrom, List.length_drop, List.length_take] at hj
  simp only [bytesFrom, byteAt, if_neg hnn, hto, List.getD_eq_getElem?_getD, List.getElem?_drop]
  rw [List.getElem?_take_of_lt (by omega)]

/-- In a self-synchronizing encoding an iteration of the forward loop that
starts before a character start does not step over it, and it leaves the state
initial. -/
theorem scan_step_selfsync {σ : Type} (L : Locale σ) (hL : SelfSynchronizing L)
    (mem : List Nat) (buf e : Int)
    (hstart : build_mbclen_cache L (byteAt mem buf) ≠ MB_INVALID)
    (s : Scan σ) (h0 : 0 ≤ s.p) (hlt : s.p < buf) (hst : s.cur_state = L.zero) :
    (scan_step L (build_mbclen_cache L) mem e s).p ≤ buf ∧
      (scan_step L (build_mbclen_cache L) mem e s).cur_state = L.zero := by
  obtain ⟨H1, H2, H3⟩ := hL
  simp only [scan_step]
  by_cases hc : build_mbclen_cache L (byteAt mem s.p) = MB_INCOMPLETE
  · simp only [hc, if_true]
    cases hr : isRawByte (L.mbrlen (bytesFrom mem s.p e) s.cur_state).1 with
    | true =>
      simp only [if_true]
      exact ⟨by omega, trivial⟩
    | false =>
      simp only [Bool.false_eq_true, if_false]
      refine ⟨?_, H3 _ _ hr⟩
      by_contra hgt
      have hle := H1 _ _ hr
      have hj1 : 1 ≤ (buf - s.p).toNat := by omega
      have hj2 : (buf - s.p).toNat < (L.mbrlen (bytesFrom mem s.p e) s.cur_state).1 := by omega
      have h2 := H2 _ _ hr (buf - s.p).toNat hj1 hj2
      rw [bytesFrom_getD mem s.p e _ h0 (by omega)] at h2
      have : s.p + ((buf - s.p).toNat : Int) = buf := by omega
      rw [this] at h2
      exact hstart h2
  · simp only [if_neg hc]
    cases hr : isRawByte (build_mbclen_cache L (byteAt mem s.p)) with
    | true =>
      simp only [if_true]
      exact ⟨by omega, trivial⟩
    | false =>
      simp only [Bool.false_eq_true, if_false]
      refine ⟨?_, hst⟩
      have hle := H1 [byteAt mem s.p] L.zero hr
      simp only [List.length_singleton] at hle
      simp only [build_mbclen_cache]
      omega

/-- C11: in a self-synchronizing encoding (UTF-8 model), for a cursor at or
before the candidate offset and a candidate offset at which a character
starts (its byte is not marked invalid by the length cache) whose length,
decoded from the initial state, is `len`, the forward decode of `is_mb_middle`
does not advance past the candidate: it ends exactly on it, and the function
returns false whenever the match length is 0 or at least `len`. This holds for
every such cursor, character boundary or not. -/
theorem is_mb_middle_char_start {σ : Type} (L : Locale σ) (hL : SelfSynchronizing L)
    (mem : List Nat) (good buf e : Int) (len match_len : Nat)
    (h0 : 0 ≤ good) (hgb : good ≤ buf)
    (hstart : build_mbclen_cache L (byteAt mem buf) ≠ MB_INVALID)
    (hchar : (L.mbrlen (bytesFrom mem buf e) L.zero).1 = len) :
    (forwardScan L (build_mbclen_cache L) mem good buf e).p = buf ∧
    ((match_len = 0 ∨ len ≤ match_len) →
      (is_mb_middle L (build_mbclen_cache L) mem good buf e match_len).1 = false) := by
  have hinv : (0 ≤ (forwardScan L (build_mbclen_cache L) mem good buf e).p ∧
      (forwardScan L (build_mbclen_cache L) mem good buf e).p ≤ buf) ∧
      (forwardScan L (build_mbclen_cache L) mem good buf e).cur_state = L.zero := by
    unfold forwardScan
    simp only
    apply scan_loop_invariant L (build_mbclen_cache L) mem buf e
      (fun s => (0 ≤ s.p ∧ s.p ≤ buf) ∧ s.cur_state = L.zero)
    · intro s hs hlt
      have h1 := scan_step_selfsync L hL mem buf e hstart s hs.1.1 hlt hs.2
      have h2 := scan_step_p L (build_mbclen_cache L) mem e s
      exact ⟨⟨by omega, h1.1⟩, h1.2⟩
    · rcases resumePoint_cases L (build_mbclen_cache L) mem good buf with h | h
      · rw [h.1]; exact ⟨⟨by show (0 : Int) ≤ buf; omega, le_refl _⟩, rfl⟩
      · rw [h.1]; exact ⟨⟨h0, hgb⟩, rfl⟩
  have hge := forwardScan_ge L (build_mbclen_cache L) mem good buf e
  have hp : (forwardScan L (build_mbclen_cache L) mem good buf e).p = buf := by omega
  refine ⟨hp, fun hml => ?_⟩
  unfold is_mb_middle
  simp only
  rw [if_neg (by omega), hp, hinv.2, hchar]
  simp only [decide_eq_false_iff_not, not_and, not_lt]
  intro hpos
  rcases hml with h | h
  · omega
  · exact h

theorem trLocale_selfSync : SelfSynchronizing trLocale := by
  refine ⟨?_, ?_, fun _ _ _ => rfl⟩
  · intro bs s h
    exact trLocale_decoderOK bs s h
  · intro bs s h j h1 h2
    rw [isRawByte_false_iff] at h
    obtain ⟨ha, hb, hc⟩ := h
    simp only [trLocale] at ha hb hc h2 ⊢
    cases bs with
    | nil => simp [utf8Decode] at hb
    | cons b rest =>
      simp only [utf8Decode] at ha hb hc h2
      split_ifs at ha hb hc h2 with c1 c2 c3
      · simp at hc
      · simp only at h2; omega
      · cases rest with
        | nil => simp at hb
        | cons c t =>
          simp only at ha hb hc h2
          split_ifs at ha hb hc h2 with c4
          · simp only at h2
            have hj : j = 1 := by omega
            subst hj
            simp only [List.getD_cons_succ, List.getD_cons_zero, build_mbclen_cache, utf8Decode]
            have hc0 : c ≠ 0 := by omega
            have hc1 : ¬ c < 128 := by omega
            have hc2 : ¬ (194 ≤ c ∧ c < 224) := by omega
            simp [hc0, hc1, hc2]
          · simp at ha
      · simp at ha

theorem is_mb_middle_char_start_witness :
    SelfSynchronizing trLocale ∧ (0 : Int) ≤ 4 ∧ (4 : Int) ≤ 7 ∧
    build_mbclen_cache trLocale (byteAt sampleText 7) ≠ MB_INVALID ∧
    (trLocale.mbrlen (bytesFrom sampleText 7 10) trLocale.zero).1 = 2 ∧
    ((forwardScan trLocale (build_mbclen_cache trLocale) sampleText 4 7 10).p = 7 ∧
    (((2 : Nat) = 0 ∨ 2 ≤ 2) →
      (is_mb_middle trLocale (build_mbclen_cache trLocale) sampleText 4 7 10 2).1 = false)) :=
  ⟨trLocale_selfSync, by decide, by decide, by decide, by decide,
    is_mb_middle_char_start trLocale trLocale_selfSync sampleText 4 7 10 2 2
      (by decide) (by decide) (by decide) (by decide)⟩

/-! ## The cursor stored by is_mb_middle -/

theorem scan_step_prev {σ : Type} (L : Locale σ) (cache : Nat → Nat) (mem : List Nat) (e : Int)
    (s : Scan σ) :
    (scan_step L cache mem e s).prev = s.p ∨ (scan_step L cache mem e s).prev = s.prev := by
  simp only [scan_step]
  generalize (if cache (byteAt mem s.p) = MB_INCOMPLETE
    then L.mbrlen (bytesFrom mem s.p e) s.cur_state
    else (cache (byteAt mem s.p), s.cur_state)) = r
  by_cases h : r.1 = MB_INCOMPLETE
  · right
    have hp : (if r.1 ≠ MB_INCOMPLETE then s.p else s.prev) = s.prev := if_neg (not_not.2 h)
    simp only [hp]
    split_ifs <;> rfl
  · left
    have hp : (if r.1 ≠ MB_INCOMPLETE then s.p else s.prev) = s.p := if_pos h
    simp only [hp]
    split_ifs <;> rfl

theorem is_mb_middle_snd {σ : Type} (L : Locale σ) (cache : Nat → Nat) (mem : List Nat)
    (good buf e : Int) (match_len : Nat) :
    (is_mb_middle L cache mem good buf e match_len).2
      = (forwardScan L cache mem good buf e).prev := by
  unfold is_mb_middle
  simp only
  split_ifs <;> rfl

/-- C12: the cursor that `is_mb_middle` stores on return is at or after the
cursor on entry, whatever the buffer, the candidate offset, the match length
and the value returned; and when the cursor on entry is at or before the
candidate offset, so is the cursor stored. -/
theorem is_mb_middle_cursor {σ : Type} (L : Locale σ) (cache : Nat → Nat) (mem : List Nat)
    (good buf e : Int) (match_len : Nat) :
    good ≤ (is_mb_middle L cache mem good buf e match_len).2 ∧
    (good ≤ buf → (is_mb_middle L cache mem good buf e match_len).2 ≤ buf) := by
  rw [is_mb_middle_snd]
  have key : good ≤ (forwardScan L cache mem good buf e).prev ∧
      ((forwardScan L cache mem good buf e).prev = good ∨
        (forwardScan L cache mem good buf e).prev < buf) := by
    unfold forwardScan
    simp only
    rcases resumePoint_cases L cache mem good buf with h | h
    · rw [h.1, scan_loop_of_ge L cache mem buf e _ _ (le_refl _)]
      exact ⟨le_refl _, Or.inl rfl⟩
    · rw [h.1]
      have := scan_loop_invariant L cache mem buf e
        (fun s => good ≤ s.p ∧ good ≤ s.prev ∧ (s.prev = good ∨ s.prev < buf))
        (fun s hs hlt => by
          have hp := scan_step_p L cache mem e s
          refine ⟨by omega, ?_, ?_⟩
          · rcases scan_step_prev L cache mem e s with h1 | h1
            · rw [h1]; exact hs.1
            · rw [h1]; exact hs.2.1
          · rcases scan_step_prev L cache mem e s with h1 | h1
            · rw [h1]; exact Or.inr hlt
            · rw [h1]; exact hs.2.2)
        (buf - good).toNat { p := good, prev := good, cur_state := L.zero }
        ⟨le_refl _, le_refl _, Or.inl rfl⟩
      exact this.2
  refine ⟨key.1, fun hgb => ?_⟩
  rcases key.2 with h | h
  · rw [h]; exact hgb
  · omega

theorem is_mb_middle_cursor_witness :
    (4 : Int) ≤ (is_mb_middle trLocale (build_mbclen_cache trLocale) sampleText 4 8 10 1).2 ∧
    ((4 : Int) ≤ 8 →
      (is_mb_middle trLocale (build_mbclen_cache trLocale) sampleText 4 8 10 1).2 ≤ 8) :=
  is_mb_middle_cursor trLocale (build_mbclen_cache trLocale) sampleText 4 8 10 1

/-! ## Termination -/

/-- More fuel than the distance to `buf` changes nothing in the forward loop. -/
theorem scan_loop_fuel {σ : Type} (L : Locale σ) (cache : Nat → Nat) (mem : List Nat)
    (buf e : Int) (d fuel : Nat) :
    ∀ s : Scan σ, buf - s.p ≤ (fuel : Int) →
      scan_loop L cache mem buf e (fuel + d) s = scan_loop L cache mem buf e fuel s := by
  induction fuel with
  | zero =>
    intro s h
    simp only [Nat.cast_zero] at h
    rw [scan_loop_of_ge L cache mem buf e _ s (by omega),
      scan_loop_of_ge L cache mem buf e _ s (by omega)]
  | succ fuel ih =>
    intro s h
    rw [show fuel + 1 + d = (fuel + d) + 1 by omega]
    simp only [scan_loop]
    split_ifs with hlt
    · apply ih
      have := scan_step_p L cache mem e s
      push_cast at h
      omega
    · rfl

/-- C14: both loops terminate, for every byte input and every decoder. Every
iteration of the loop of `mbtoupper` consumes at least one input byte, so
after as many iterations as there are input bytes the input is exhausted and
further fuel changes nothing. Every iteration of the forward loop of
`is_mb_middle` advances `p` by at least one byte, so after as many iterations
as there are bytes from the resume point to `buf` the loop is left with
`p >= buf`, and further fuel changes nothing. -/
theorem loops_terminate {σ : Type} (L : Locale σ) :
    (∀ s : Loop σ, s.beg ≠ [] → (mbtoupper_step L s).beg.length < s.beg.length) ∧
    (∀ (st : Statics) (beg : List Nat),
      (iter L st beg beg.length).beg = [] ∧
      ∀ k, beg.length ≤ k → iter L st beg k = iter L st beg beg.length) ∧
    (∀ (cache : Nat → Nat) (mem : List Nat) (e : Int) (s : Scan σ),
      s.p + 1 ≤ (scan_step L cache mem e s).p) ∧
    (∀ (cache : Nat → Nat) (mem : List Nat) (good buf e : Int),
      buf ≤ (forwardScan L cache mem good buf e).p ∧
      ∀ fuel, (buf - resumePoint L cache mem good buf).toNat ≤ fuel →
        scan_loop L cache mem buf e fuel
            { p := resumePoint L cache mem good buf, prev := good, cur_state := L.zero }
          = forwardScan L cache mem good buf e) := by
  refine ⟨fun s hs => step_beg_lt L s hs, fun st beg => ⟨iter_done L st beg, fun k hk => ?_⟩,
    fun cache mem e s => scan_step_p L cache mem e s,
    fun cache mem good buf e => ⟨forwardScan_ge L cache mem good buf e, fun fuel hf => ?_⟩⟩
  · simp only [iter]
    rw [loop_fuel L k _ (by simpa [Loop.init] using hk)]
    simp [Loop.init]
  · obtain ⟨d, rfl⟩ : ∃ d, fuel = (buf - resumePoint L cache mem good buf).toNat + d :=
      ⟨fuel - (buf - resumePoint L cache mem good buf).toNat, by omega⟩
    rw [scan_loop_fuel L cache mem buf e d _ _ (by simp only; omega)]
    rfl

/-! ## The resume point for a distant cursor -/

/-- C18 as stated fails. In a UTF-8 locale with `MB_CUR_MAX = 6`, cursor 0 and
candidate offset 8: in the sample text the byte at 8 is a continuation byte
and the byte at 7 is a leading byte, yet the forward loop starts at 8, not at
7; and in a text whose bytes at 2 to 8 are all continuation bytes it starts at
8 as well, not at `8 - 6 = 2`. -/
theorem resumePoint_not_nearest :
    trLocale.using_utf8 = true ∧ toSize (8 - 0) > trLocale.MB_CUR_MAX ∧
    build_mbclen_cache trLocale (byteAt sampleText 8) = MB_INVALID ∧
    build_mbclen_cache trLocale (byteAt sampleText 7) ≠ MB_INVALID ∧
    resumePoint trLocale (build_mbclen_cache trLocale) sampleText 0 8 = 8 ∧
    (∀ q ∈ [2, 3, 4, 5, 6, 7, 8],
      build_mbclen_cache trLocale
        (byteAt [97, 97, 177, 177, 177, 177, 177, 177, 177, 98] q) = MB_INVALID) ∧
    resumePoint trLocale (build_mbclen_cache trLocale)
      [97, 97, 177, 177, 177, 177, 177, 177, 177, 98] 0 8 = 8 := by
  decide

/-- C18, amended: when the encoding is UTF-8 and the gap between the cursor and
the candidate offset exceeds `MB_CUR_MAX`, the forward decoding resumes at the
candidate offset itself, both when the byte there is one that the length cache
marks as a valid leading byte (it is then the nearest such position) and when
no byte within `MB_CUR_MAX` before the candidate is so marked. -/
theorem resumePoint_far {σ : Type} (L : Locale σ) (cache : Nat → Nat) (mem : List Nat)
    (good buf : Int) (hu : L.using_utf8 = true)
    (hgap : toSize (buf - good) > L.MB_CUR_MAX)
    (h : cache (byteAt mem buf) ≠ MB_INVALID ∨
      ∀ q : Int, buf - (L.MB_CUR_MAX : Int) ≤ q → q ≤ buf → cache (byteAt mem q) = MB_INVALID) :
    resumePoint L cache mem good buf = buf := by
  rcases resumePoint_cases L cache mem good buf with h1 | h1
  · exact h1.1
  · rcases h with _ | _ <;> exact absurd ⟨hu, hgap⟩ h1.2

theorem resumePoint_far_witness :
    trLocale.using_utf8 = true ∧ toSize (7 - 0) > trLocale.MB_CUR_MAX ∧
    (build_mbclen_cache trLocale (byteAt sampleText 7) ≠ MB_INVALID ∨
      ∀ q : Int, 7 - (trLocale.MB_CUR_MAX : Int) ≤ q → q ≤ 7 →
        build_mbclen_cache trLocale (byteAt sampleText q) = MB_INVALID) ∧
    resumePoint trLocale (build_mbclen_cache trLocale) sampleText 0 7 = 7 :=
  ⟨rfl, by decide, Or.inl (by decide),
    resumePoint_far trLocale (build_mbclen_cache trLocale) sampleText 0 7 rfl (by decide)
      (Or.inl (by decide))⟩

/-- C19: the answer depends on the cursor. In the sample text, with the
candidate offset 8 inside the two-byte character at 7 and match length 0: an
earlier call with cursor 0 and candidate 5 stores the cursor 4; with the cursor
4, or 7, the answer is true (mid-character), and with the cursor 0 the answer
is false. All three cursors are character boundaries before the candidate. -/
theorem is_mb_middle_cursor_dependent :
    (is_mb_middle trLocale (build_mbclen_cache trLocale) sampleText 0 5 10 0).2 = 4 ∧
    (is_mb_middle trLocale (build_mbclen_cache trLocale) sampleText 4 8 10 0).1 = true ∧
    (is_mb_middle trLocale (build_mbclen_cache trLocale) sampleText 7 8 10 0).1 = true ∧
    (is_mb_middle trLocale (build_mbclen_cache trLocale) sampleText 0 8 10 0).1 = false := by
  decide

/-! ## An undecodable byte at the candidate offset -/

/-- C20 as stated fails for the largest match lengths: the forward decode
lands on the candidate offset 1, the decode there reports an invalid sequence,
that is `(size_t) -1`, and for the positive match length `2^64 - 1` the test
`match_len < (size_t) -1` is false, so the function returns false. The same
happens for an incomplete sequence and the match length `2^64 - 2`. -/
theorem is_mb_middle_sentinel_length :
    (forwardScan trLocale (build_mbclen_cache trLocale) [97, 255, 98] 0 1 3).p = 1 ∧
    (trLocale.mbrlen (bytesFrom [97, 255, 98] 1 3)
      (forwardScan trLocale (build_mbclen_cache trLocale) [97, 255, 98] 0 1 3).cur_state).1
        = MB_INVALID ∧
    0 < 2 ^ 64 - 1 ∧
    (is_mb_middle trLocale (build_mbclen_cache trLocale) [97, 255, 98] 0 1 3 (2 ^ 64 - 1)).1
      = false ∧
    (forwardScan trLocale (build_mbclen_cache trLocale) [97, 196] 0 1 2).p = 1 ∧
    (trLocale.mbrlen (bytesFrom [97, 196] 1 2)
      (forwardScan trLocale (build_mbclen_cache trLocale) [97, 196] 0 1 2).cur_state).1
        = MB_INCOMPLETE ∧
    (is_mb_middle trLocale (build_mbclen_cache trLocale) [97, 196] 0 1 2 (2 ^ 64 - 2)).1
      = false := by
  decide

/-- C20, amended: when the forward decode lands exactly on the candidate offset
and the decode of the bytes there reports an invalid or an incomplete
sequence, `is_mb_middle` returns true for every positive match length below
`(size_t) -2`, as is the length of every match that lies in a buffer, and false
for the match length 0. -/
theorem is_mb_middle_undecodable {σ : Type} (L : Locale σ) (cache : Nat → Nat)
    (mem : List Nat) (good buf e : Int) (match_len : Nat)
    (hp : (forwardScan L cache mem good buf e).p = buf)
    (hbad : (L.mbrlen (bytesFrom mem buf e) (forwardScan L cache mem good buf e).cur_state).1
        = MB_INVALID ∨
      (L.mbrlen (bytesFrom mem buf e) (forwardScan L cache mem good buf e).cur_state).1
        = MB_INCOMPLETE) :
    (0 < match_len → match_len < MB_INCOMPLETE →
      (is_mb_middle L cache mem good buf e match_len).1 = true) ∧
    (is_mb_middle L cache mem good buf e 0).1 = false := by
  have hv : MB_INCOMPLETE < MB_INVALID := by decide
  constructor
  · intro h1 h2
    unfold is_mb_middle
    simp only
    rw [if_neg (by omega), hp]
    simp only [decide_eq_true_eq]
    refine ⟨h1, ?_⟩
    rcases hbad with h | h <;> rw [h] <;> omega
  · unfold is_mb_middle
    simp only
    rw [if_neg (by omega)]
    simp

theorem is_mb_middle_undecodable_witness :
    (forwardScan trLocale (build_mbclen_cache trLocale) [97, 255, 98] 0 1 3).p = 1 ∧
    ((trLocale.mbrlen (bytesFrom [97, 255, 98] 1 3)
        (forwardScan trLocale (build_mbclen_cache trLocale) [97, 255, 98] 0 1 3).cur_state).1
        = MB_INVALID ∨
      (trLocale.mbrlen (bytesFrom [97, 255, 98] 1 3)
        (forwardScan trLocale (build_mbclen_cache trLocale) [97, 255, 98] 0 1 3).cur_state).1
        = MB_INCOMPLETE) ∧
    ((0 < 1 → 1 < MB_INCOMPLETE →
      (is_mb_middle trLocale (build_mbclen_cache trLocale) [97, 255, 98] 0 1 3 1).1 = true) ∧
    (is_mb_middle trLocale (build_mbclen_cache trLocale) [97, 255, 98] 0 1 3 0).1 = false) :=
  ⟨by decide, Or.inl (by decide),
    is_mb_middle_undecodable trLocale (build_mbclen_cache trLocale) [97, 255, 98] 0 1 3 1
      (by decide) (Or.inl (by decide))⟩

/-! ## kwsinit -/

theorem kwsinit_trans_getElem? (toupper : Nat → Nat) (b : Nat) (hb : b < 256) :
    (kwsinit_trans toupper)[b]? = some (toupper b % 256) := by
  simp [kwsinit_trans, NCHAR, List.getElem?_map, List.getElem?_range hb]

/-- C13: `kwsinit` hands a translation table to the matcher constructor if and
only if case-insensitive matching is requested and `MB_CUR_MAX` is 1, and
otherwise hands it no table. The table has 256 entries and entry `b` is
`toupper (b)` stored in a `char`, which is `toupper (b)` itself as `toupper`
returns byte values; so where `toupper` is the uppercasing of the ASCII
letters, the table maps each of `a` to `z` to its uppercase letter and is the
identity on the other ASCII bytes. -/
theorem kwsinit_table {σ : Type} (L : Locale σ) (match_icase : Bool) (toupper : Nat → Nat) :
    (∀ (κ : Type) (kwsalloc : Option (List Nat) → Option κ),
      kwsinit L match_icase toupper kwsalloc
        = kwsalloc (if match_icase = true ∧ L.MB_CUR_MAX = 1
            then some (kwsinit_trans toupper) else none)) ∧
    ((∃ t, kwsinit L match_icase toupper (fun a => some a) = some (some t)) ↔
      (match_icase = true ∧ L.MB_CUR_MAX = 1)) ∧
    (¬ (match_icase = true ∧ L.MB_CUR_MAX = 1) →
      kwsinit L match_icase toupper (fun a => some a) = some none) ∧
    ((match_icase = true ∧ L.MB_CUR_MAX = 1) →
      kwsinit L match_icase toupper (fun a => some a) = some (some (kwsinit_trans toupper))) ∧
    (kwsinit_trans toupper).length = 256 ∧
    (∀ b, b < 256 → (kwsinit_trans toupper)[b]? = some (toupper b % 256)) ∧
    ((∀ b, b < 256 → toupper b < 256) →
      ∀ b, b < 256 → (kwsinit_trans toupper)[b]? = some (toupper b)) ∧
    ((∀ b, b < 128 → toupper b = asciiUpper b) →
      ∀ b, b < 128 → (kwsinit_trans toupper)[b]?
        = some (if 97 ≤ b ∧ b ≤ 122 then b - 32 else b)) := by
  refine ⟨fun κ kwsalloc => ?_, ?_, fun h => ?_, fun h => ?_, ?_,
    fun b hb => kwsinit_trans_getElem? toupper b hb, fun h b hb => ?_, fun h b hb => ?_⟩
  · unfold kwsinit; split_ifs <;> rfl
  · unfold kwsinit
    split_ifs with h
    · simp [h]
    · simp [h]
  · unfold kwsinit; rw [if_neg h]
  · unfold kwsinit; rw [if_pos h]
  · simp [kwsinit_trans, NCHAR]
  · rw [kwsinit_trans_getElem? toupper b hb, Nat.mod_eq_of_lt (h b hb)]
  · rw [kwsinit_trans_getElem? toupper b (by omega), h b hb]
    unfold asciiUpper
    split_ifs with h1
    · rw [Nat.mod_eq_of_lt (by omega)]
    · rw [Nat.mod_eq_of_lt (by omega)]

/-! ## The empty input -/

/-- C15: for an input of length zero `mbtoupper` leaves `*n` at 0 and does not
write the result slot `*len_map_p`; the buffer it returns keeps the contents
of the reusable buffer, and is that very buffer, with all statics unchanged,
unless the capacity was still 0; no decoding takes place, the result being the
same for every locale. -/
theorem mbtoupper_empty {σ : Type} (L : Locale σ) (st : Statics)
    (slot : Option (List mb_len_map_t)) (hwf : st.out.length = st.outalloc) :
    (mbtoupper L st [] slot).n = 0 ∧
    (mbtoupper L st [] slot).len_map_p = slot ∧
    st.out <+: (mbtoupper L st [] slot).ret ∧
    (st.outalloc ≠ 0 →
      (mbtoupper L st [] slot).ret = st.out ∧ (mbtoupper L st [] slot).statics = st) ∧
    (∀ (τ : Type) (L' : Locale τ), mbtoupper L' st [] slot = mbtoupper L st [] slot) := by
  refine ⟨rfl, rfl, ?_, fun h => ?_, fun τ L' => rfl⟩
  · simp only [mbtoupper, mbtoupper_entry, List.length_nil]
    by_cases h : st.outalloc = 0
    · have hnil : st.out = [] := List.length_eq_zero.1 (hwf.trans h)
      simp [h, hnil]
    · simp [h]
  · simp [mbtoupper, mbtoupper_entry, h]

theorem mbtoupper_empty_witness :
    ({ out := [196, 176], len_map := [-1, 0], outalloc := 2 } : Statics).out.length
      = ({ out := [196, 176], len_map := [-1, 0], outalloc := 2 } : Statics).outalloc ∧
    ((mbtoupper trLocale { out := [196, 176], len_map := [-1, 0], outalloc := 2 } []
        (some [7])).n = 0 ∧
    (mbtoupper trLocale { out := [196, 176], len_map := [-1, 0], outalloc := 2 } []
        (some [7])).len_map_p = some [7] ∧
    ({ out := [196, 176], len_map := [-1, 0], outalloc := 2 } : Statics).out
      <+: (mbtoupper trLocale { out := [196, 176], len_map := [-1, 0], outalloc := 2 } []
        (some [7])).ret ∧
    (({ out := [196, 176], len_map := [-1, 0], outalloc := 2 } : Statics).outalloc ≠ 0 →
      (mbtoupper trLocale { out := [196, 176], len_map := [-1, 0], outalloc := 2 } []
          (some [7])).ret
        = ({ out := [196, 176], len_map := [-1, 0], outalloc := 2 } : Statics).out ∧
      (mbtoupper trLocale { out := [196, 176], len_map := [-1, 0], outalloc := 2 } []
          (some [7])).statics
        = { out := [196, 176], len_map := [-1, 0], outalloc := 2 }) ∧
    (∀ (τ : Type) (L' : Locale τ),
      mbtoupper L' { out := [196, 176], len_map := [-1, 0], outalloc := 2 } [] (some [7])
        = mbtoupper trLocale { out := [196, 176], len_map := [-1, 0], outalloc := 2 } []
            (some [7]))) :=
  ⟨rfl,
    mbtoupper_empty trLocale { out := [196, 176], len_map := [-1, 0], outalloc := 2 }
      (some [7]) rfl⟩

/-! ## The output as the spec words it -/

theorem loop_folded {σ : Type} (L : Locale σ) (fuel : Nat) :
    ∀ s : Loop σ,
      (mbtoupper_loop L fuel s).out = s.out ++ foldedBytes L fuel s.beg s.is s.os := by
  induction fuel with
  | zero => intro s; simp [loop_zero, foldedBytes]
  | succ fuel ih =>
    intro s
    by_cases hb : s.beg = []
    · rw [loop_nil L _ s hb, hb]; simp [foldedBytes]
    · obtain ⟨b, rest, hbr⟩ := beg_cases s hb
      rw [loop_succ L fuel s hb]
      cases hr : isRawByte (mbclenAt L s) with
      | true =>
        rw [step_raw L s b rest hbr hr, ih]
        have hr' : isRawByte (L.mbrtowc (b :: rest) s.is).1 = true := by
          simpa [mbclenAt, hbr] using hr
        simp [hbr, foldedBytes, hr']
      | false =>
        rw [step_ok L s hb hr, ih]
        have hr' : isRawByte (L.mbrtowc (b :: rest) s.is).1 = false := by
          simpa [mbclenAt, hbr] using hr
        simp [hbr, foldedBytes, hr', encodedAt, mbclenAt]

theorem getElem?_append_cons {α : Type} (a : List α) (x : α) (t : List α) :
    (a ++ x :: t)[a.length]? = some x := by
  rw [List.getElem?_append_right (le_refl _)]
  simp

theorem loops_fuel_iter {σ : Type} (L : Locale σ) (st : Statics) (beg : List Nat) (k : Nat)
    (hk : beg.length ≤ k) : iter L st beg k = iter L st beg beg.length := by
  simp only [iter]
  rw [loop_fuel L k _ (by simpa [Loop.init] using hk)]
  simp [Loop.init]

/-- C16: for a non-empty input the output bytes of `mbtoupper` are the bytes
that the spec describes: the concatenation, over the successive decode steps
from the start of the input, of the raw input byte at an invalid, incomplete
or zero-length step and of the encoding of the uppercase code point at a
successful step (a number of steps equal to the input length is enough, more
steps add nothing). The length returned is the number of these bytes, and the
byte that follows them in the buffer is NUL. -/
theorem mbtoupper_output_spec {σ : Type} (L : Locale σ) (st : Statics) (beg : List Nat)
    (slot : Option (List mb_len_map_t)) (hne : beg ≠ []) :
    (mbtoupper L st beg slot).output = foldedBytes L beg.length beg L.zero L.zero ∧
    (∀ k, beg.length ≤ k →
      foldedBytes L k beg L.zero L.zero = foldedBytes L beg.length beg L.zero L.zero) ∧
    (mbtoupper L st beg slot).n = (foldedBytes L beg.length beg L.zero L.zero).length ∧
    (mbtoupper L st beg slot).ret[(mbtoupper L st beg slot).n]? = some 0 := by
  have hf : ∀ k, (iter L st beg k).out = foldedBytes L k beg L.zero L.zero := by
    intro k
    have := loop_folded L k (Loop.init L beg (mbtoupper_entry st beg.length).outalloc)
    simpa [iter, Loop.init] using this
  refine ⟨?_, fun k hk => ?_, ?_, ?_⟩
  · rw [mbtoupper_output L st beg slot hne, hf]
  · rw [← hf k, ← hf beg.length, (loops_fuel_iter L st beg k hk)]
  · rw [mbtoupper_n L st beg slot hne, hf]
  · have : beg.length ≠ 0 := by simpa using hne
    simp only [mbtoupper]
    rw [if_neg this]
    exact getElem?_append_cons _ _ _

theorem mbtoupper_output_spec_witness :
    ([105, 255, 196, 177] : List Nat) ≠ [] ∧
    ((mbtoupper trLocale Statics.fresh [105, 255, 196, 177] none).output
      = foldedBytes trLocale ([105, 255, 196, 177] : List Nat).length [105, 255, 196, 177]
          trLocale.zero trLocale.zero ∧
    (∀ k, ([105, 255, 196, 177] : List Nat).length ≤ k →
      foldedBytes trLocale k [105, 255, 196, 177] trLocale.zero trLocale.zero
        = foldedBytes trLocale ([105, 255, 196, 177] : List Nat).length [105, 255, 196, 177]
            trLocale.zero trLocale.zero) ∧
    (mbtoupper trLocale Statics.fresh [105, 255, 196, 177] none).n
      = (foldedBytes trLocale ([105, 255, 196, 177] : List Nat).length [105, 255, 196, 177]
          trLocale.zero trLocale.zero).length ∧
    (mbtoupper trLocale Statics.fresh [105, 255, 196, 177] none).ret[(mbtoupper trLocale
        Statics.fresh [105, 255, 196, 177] none).n]? = some 0) :=
  ⟨by decide,
    mbtoupper_output_spec trLocale Statics.fresh [105, 255, 196, 177] none (by decide)⟩

/-! ## The capacity of the output buffer -/

/-- C17: the capacity after one growth step can be too small. On a first call
with the one-byte input `i` in a UTF-8 locale (`MB_CUR_MAX = 6`) the capacity
is initialised to 1, the check of the first iteration grows it once, to 2, and
`outlen + mb_cur_max < outalloc` is false (`0 + 6 < 2`). The conversion then
writes the two bytes of dotted capital I, and the terminating NUL goes to index
2, which is not below the capacity 2. -/
theorem mbtoupper_capacity_short :
    (mbtoupper_entry Statics.fresh 1).outalloc = 1 ∧
    growCheck trLocale 0 1 = 2 ∧
    ¬ (0 + trLocale.MB_CUR_MAX < growCheck trLocale 0 1) ∧
    (iter trLocale Statics.fresh [105] 1).outalloc = 2 ∧
    (mbtoupper trLocale Statics.fresh [105] none).output = [196, 176] ∧
    (mbtoupper trLocale Statics.fresh [105] none).n = 2 ∧
    (mbtoupper trLocale Statics.fresh [105] none).statics.outalloc = 2 ∧
    ¬ ((mbtoupper trLocale Statics.fresh [105] none).n
        < (mbtoupper trLocale Statics.fresh [105] none).statics.outalloc) := by
  decide

/-! ## Single-byte locales whose encoder fails -/

theorem step_raw_of_succeeds {σ : Type} (L : Locale σ) (fails : Nat → σ → Bool)
    (hf : ∀ wc ps, fails wc ps = false) (s : Loop σ) :
    mbtoupper_step_raw L fails s = some (mbtoupper_step L s) := by
  unfold mbtoupper_step_raw
  cases hb : s.beg with
  | nil => simp [step_nil L s hb]
  | cons b rest =>
    simp only [hf, Bool.false_eq_true, if_false]
    split_ifs <;> rfl

/-- Where `wcrtomb` never fails the loop is the loop `mbtoupper_loop`. -/
theorem loop_raw_of_succeeds {σ : Type} (L : Locale σ) (fails : Nat → σ → Bool)
    (hf : ∀ wc ps, fails wc ps = false) (fuel : Nat) :
    ∀ s : Loop σ, mbtoupper_loop_raw L fails fuel s = some (mbtoupper_loop L fuel s) := by
  induction fuel with
  | zero => intro s; rfl
  | succ fuel ih =>
    intro s
    by_cases hb : s.beg = []
    · rw [loop_nil L _ s hb]
      simp [mbtoupper_loop_raw, hb]
    · rw [loop_succ L fuel s hb]
      simp only [mbtoupper_loop_raw, if_neg hb, step_raw_of_succeeds L fails hf s]
      exact ih _

/-- Where `wcrtomb` never fails the function is the function `mbtoupper`. -/
theorem mbtoupper_raw_of_succeeds {σ : Type} (L : Locale σ) (fails : Nat → σ → Bool)
    (hf : ∀ wc ps, fails wc ps = false) (st : Statics) (beg : List Nat)
    (slot : Option (List mb_len_map_t)) :
    mbtoupper_raw L fails st beg slot = some (mbtoupper L st beg slot) := by
  unfold mbtoupper_raw mbtoupper
  simp only [loop_raw_of_succeeds L fails hf]
  split_ifs <;> rfl

end Grep
